import Mathlib

/-!
Verification of the index-synchronization engine of the smart-gallery service
(`smartgallery.py`). The Python source is shallowly embedded: pure helper
functions become Lean functions, the SQLite `files` table becomes a list of
rows, the filesystem becomes explicit input data, and every fallible external
collaborator (Pillow decode, OpenCV capture, workflow extraction) becomes an
explicit oracle value describing the outcome the library call would have had.
The embedding targets a POSIX platform, where `os.sep = '/'`.
-/

namespace Gallery

/-! ### Basic string helpers (`os.path` fragments used by the source) -/

/-- ASCII lower-casing of a single character, as applied by Python
`str.lower()` to the ASCII extension strings this program compares
(and by SQLite `LIKE` for its default case folding). -/
def asciiLower (c : Char) : Char :=
  if 'A' ≤ c ∧ c ≤ 'Z' then Char.ofNat (c.toNat + 32) else c

/-- `s.lower()` restricted to ASCII case folding. -/
def lowerStr (s : String) : String :=
  String.mk (s.data.map asciiLower)

/-- The extension part of `os.path.splitext(name)` for a bare file name
(no separators): the suffix starting at the last dot, provided a non-dot
character occurs before that dot (so `.bashrc`-style names have no
extension), else the empty string.  Mirrors CPython `genericpath._splitext`. -/
def pyExt (name : String) : String :=
  let r := name.data.reverse
  let tail := r.takeWhile (fun c => c ≠ '.')
  if tail.length = r.length then ""
  else
    let pre := r.drop (tail.length + 1)
    if pre.any (fun c => c ≠ '.') then String.mk ('.' :: tail.reverse) else ""

/-- `os.path.basename` on a POSIX path: everything after the last slash. -/
def basename (p : String) : String :=
  String.mk (p.data.reverse.takeWhile (fun c => c ≠ '/')).reverse

/-- `os.path.splitext(p)[1].lower()` as the source applies it to a path:
the extension of the last path component, lower-cased. -/
def pyExtLower (p : String) : String :=
  lowerStr (pyExt (basename p))

/-- `os.path.dirname` on a POSIX path, mirroring `posixpath.dirname`:
take everything up to and including the last slash, then strip trailing
slashes unless the head consists only of slashes. -/
def dirname (p : String) : String :=
  let r := p.data.reverse
  let tail := r.takeWhile (fun c => c ≠ '/')
  if tail.length = r.length then ""
  else
    let headR := r.drop tail.length
    if headR.all (fun c => c = '/') then String.mk headR.reverse
    else String.mk ((headR.dropWhile (fun c => c = '/')).reverse)

/-! ### `path_to_key` / `key_to_path` (urlsafe base64 of the relative path)

The Python functions operate on `str`; the bytes fed to base64 are the UTF-8
encoding of the relative path. The embedding works at the byte level
(`List Nat`, each element `< 256`): `path_to_key` maps the UTF-8 bytes of the
relative path to the ASCII codes of the key string, and `key_to_path` inverts
it.  On POSIX the `replace(os.sep, '/')` / `replace('/', os.sep)` steps of the
source are the identity and are therefore omitted. -/

/-- Encode one 6-bit value as the ASCII code of its urlsafe-base64 digit
(`A-Z a-z 0-9 - _`). -/
def encSext (s : Nat) : Nat :=
  if s < 26 then 65 + s
  else if s < 52 then 71 + s
  else if s < 62 then s - 4
  else if s = 62 then 45
  else 95

/-- Decode the ASCII code of a urlsafe-base64 digit back to its 6-bit value;
`none` for anything outside the alphabet (including the pad character). -/
def decSext (c : Nat) : Option Nat :=
  if 65 ≤ c ∧ c ≤ 90 then some (c - 65)
  else if 97 ≤ c ∧ c ≤ 122 then some (c - 71)
  else if 48 ≤ c ∧ c ≤ 57 then some (c + 4)
  else if c = 45 then some 62
  else if c = 95 then some 63
  else none

/-- `base64.urlsafe_b64encode` on a byte sequence: groups of three bytes become
four alphabet codes; a final group of one or two bytes is padded with `=`
(ASCII 61). -/
def b64encode : List Nat → List Nat
  | [] => []
  | [a] => [encSext (a / 4), encSext (a % 4 * 16), 61, 61]
  | [a, b] => [encSext (a / 4), encSext (a % 4 * 16 + b / 16), encSext (b % 16 * 4), 61]
  | a :: b :: c :: rest =>
      encSext (a / 4) :: encSext (a % 4 * 16 + b / 16) ::
      encSext (b % 16 * 4 + c / 64) :: encSext (c % 64) :: b64encode rest

/-- `base64.urlsafe_b64decode` on a well-formed key: inverts `b64encode`;
returns `none` on a malformed block (bad length, bad digit, pad in the
middle).  Python additionally discards characters outside the alphabet before
decoding; on the output of the encoder — the only inputs the round-trip claim
exercises — the two behaviours coincide. -/
def b64decode : List Nat → Option (List Nat)
  | [] => some []
  | w :: x :: y :: z :: rest =>
      (decSext w).bind fun s1 =>
      (decSext x).bind fun s2 =>
      if y = 61 ∧ z = 61 ∧ rest = [] then
        some [s1 * 4 + s2 / 16]
      else if z = 61 ∧ rest = [] then
        (decSext y).bind fun s3 =>
        some [s1 * 4 + s2 / 16, s2 % 16 * 16 + s3 / 4]
      else
        (decSext y).bind fun s3 =>
        (decSext z).bind fun s4 =>
        (b64decode rest).bind fun tl =>
        some ((s1 * 4 + s2 / 16) :: (s2 % 16 * 16 + s3 / 4) :: (s3 % 4 * 64 + s4) :: tl)
  | _ => none

/-- ASCII codes of the sentinel key `'_root_'`. -/
def rootKeyBytes : List Nat := [95, 114, 111, 111, 116, 95]

/-- `path_to_key(relative_path)`: the empty path maps to the sentinel
`'_root_'`, any other path to the urlsafe-base64 encoding of its bytes. -/
def path_to_key (p : List Nat) : List Nat :=
  if p = [] then rootKeyBytes else b64encode p

/-- `key_to_path(key)`: the sentinel decodes to the empty path, any other key
is base64-decoded (`none` on failure, mirroring the `except: return None`). -/
def key_to_path (k : List Nat) : Option (List Nat) :=
  if k = rootKeyBytes then some [] else b64decode k

/-! ### Metadata prober (`analyze_file_metadata`)

Every fallible library call the prober makes is represented by an oracle
field of `ProbeEnv` describing the outcome that call would have had for this
file: `imageOpen = none` means `PIL.Image.open` raised (corrupt, unsupported
or missing file), `videoCap = none` means `cv2.VideoCapture` raised, and
`workflowFound` is the truthiness of `extract_workflow(filepath)` (that
function catches all of its own exceptions and returns a JSON string or
`None`, so a boolean outcome captures its whole interface).  The source opens
the same image file up to three times (animation check, dimension read,
duration read); the oracle gives the common outcome of those calls. -/

/-- The record `analyze_file_metadata` returns: the `details` dict with keys
`type` (named `typ` here, `type` being reserved in Lean), `duration`,
`dimensions`, `has_workflow`. -/
structure Metadata where
  typ : String
  duration : String
  dimensions : String
  has_workflow : Nat
deriving DecidableEq, Repr

/-- Outcome of a successful `PIL.Image.open` on the file: pixel size, the
`is_animated` flag, `n_frames` (with `getattr`'s default 1 applied), and the
per-frame `duration` metadata in milliseconds (with the `.get('duration',
100)` default applied to each frame). -/
structure ImgInfo where
  width : Nat
  height : Nat
  isAnimated : Bool
  nFrames : Nat
  frameDurations : List Nat
deriving DecidableEq, Repr

/-- Outcome of a successful `cv2.VideoCapture` on the file: the `isOpened`
flag and the FPS / frame-count / width / height properties.  The float
properties are modelled as rationals. -/
structure VideoInfo where
  opened : Bool
  fps : Rat
  frameCount : Rat
  width : Nat
  height : Nat
deriving DecidableEq, Repr

/-- Oracle describing the outcomes of the prober's fallible collaborators. -/
structure ProbeEnv where
  imageOpen : Option ImgInfo
  videoCap : Option VideoInfo
  workflowFound : Bool
deriving DecidableEq, Repr

/-- The `type_map` literal of `analyze_file_metadata`. -/
def typeMap : List (String × String) :=
  [(".png", "image"), (".jpg", "image"), (".jpeg", "image"), (".gif", "animated_image"),
   (".mp4", "video"), (".webm", "video"), (".mov", "video"),
   (".mp3", "audio"), (".wav", "audio"), (".ogg", "audio"), (".flac", "audio")]

/-- `is_webp_animated`: opens the image and reads `is_animated`; any
exception yields `False`. -/
def is_webp_animated (img : Option ImgInfo) : Bool :=
  match img with
  | some i => i.isAnimated
  | none => false

/-- Media-type classification: `type_map` lookup with `'unknown'` default,
then the `.webp` content-probe fallback. -/
def classifyType (img : Option ImgInfo) (ext : String) : String :=
  let t0 := (typeMap.lookup ext).getD "unknown"
  if t0 = "unknown" ∧ ext = ".webp" then
    if is_webp_animated img then "animated_image" else "image"
  else t0

/-- The dimension probe: for image-like types (`'image' in details['type']`,
which on the five possible type values means `image` or `animated_image`),
open the file and format `WIDTHxHEIGHT`; a decode failure leaves the field
empty. -/
def probeDims (img : Option ImgInfo) (t : String) : String :=
  if t = "image" ∨ t = "animated_image" then
    match img with
    | some i => toString i.width ++ "x" ++ toString i.height
    | none => ""
  else ""

/-- `format_duration(seconds)`: empty for non-positive input, else
`H:MM:SS` or `MM:SS`. -/
def format_duration (seconds : Rat) : String :=
  if seconds ≤ 0 then ""
  else
    let total : Nat := (Rat.floor seconds).toNat
    let m := total / 60
    let s := total % 60
    let h := m / 60
    let m2 := m % 60
    let pad := fun (n : Nat) => if n < 10 then "0" ++ toString n else toString n
    if h > 0 then toString h ++ ":" ++ pad m2 ++ ":" ++ pad s
    else pad m2 ++ ":" ++ pad s

/-- The duration/dimension refinement of `analyze_file_metadata`: for videos
the OpenCV probe yields `count / fps` (when both positive) and overwrites the
dimensions; for animated images the duration is the frame-delay sum (GIF) or
`n_frames / WEBP_ANIMATED_FPS` (WEBP).  Returns the pair
`(total_duration_sec, dimensions)`. -/
def durDims (webpFps : Rat) (img : Option ImgInfo) (vid : Option VideoInfo)
    (ext t dims0 : String) : Rat × String :=
  if t = "video" then
    match vid with
    | some v =>
        if v.opened then
          ((if v.fps > 0 ∧ v.frameCount > 0 then v.frameCount / v.fps else 0),
            toString v.width ++ "x" ++ toString v.height)
        else (0, dims0)
    | none => (0, dims0)
  else if t = "animated_image" then
    match img with
    | some i =>
        if i.isAnimated then
          if ext = ".gif" then (((i.frameDurations.sum : Nat) : Rat) / 1000, dims0)
          else if ext = ".webp" then ((i.nFrames : Rat) / webpFps, dims0)
          else (0, dims0)
        else (0, dims0)
    | none => (0, dims0)
  else (0, dims0)

/-- `analyze_file_metadata(filepath)`, with the configured
`WEBP_ANIMATED_FPS` and the collaborator oracle as explicit inputs. -/
def analyze_file_metadata (webpFps : Rat) (env : ProbeEnv) (filepath : String) : Metadata :=
  let ext := pyExtLower filepath
  let t := classifyType env.imageOpen ext
  let dims0 := probeDims env.imageOpen t
  let dd := durDims webpFps env.imageOpen env.videoCap ext t dims0
  { typ := t
    duration := if dd.1 > 0 then format_duration dd.1 else ""
    dimensions := dd.2
    has_workflow := if env.workflowFound then 1 else 0 }



/-! ### Thumbnail generator (`create_thumbnail`)

The oracle `ThumbEnv` describes the outcomes of the generator's fallible
library calls: `imageOpen = none` means `PIL.Image.open` raised on the
source; `imageSaveOk` is whether the Pillow resize/convert/save sequence of
the taken branch completed without raising; `videoReadOk` is the success flag
of `cap.read()` on the first video frame; `videoSaveOk` is whether the OpenCV
frame's conversion and JPEG save completed without raising.  Exceptions are
caught by the source's two `try` blocks, which log and fall through to
`return None`. -/

/-- Outcome of a successful `PIL.Image.open` in `create_thumbnail`: the
container format, the `is_animated` flag and the number of frames
`ImageSequence.Iterator` yields. -/
structure ThumbImg where
  format : String
  isAnimated : Bool
  frameCount : Nat
deriving DecidableEq, Repr

/-- Oracle for `create_thumbnail`'s fallible library calls. -/
structure ThumbEnv where
  imageOpen : Option ThumbImg
  imageSaveOk : Bool
  videoReadOk : Bool
  videoSaveOk : Bool
deriving DecidableEq, Repr

/-- `create_thumbnail(filepath, file_hash, file_type)` with the thumbnail
cache directory and the oracle as explicit inputs.  Note the source quirk
kept by the model: an animated image that decodes to zero frames skips the
save but still returns the cache path. -/
def create_thumbnail (env : ThumbEnv) (cacheDir file_hash : String)
    (file_type : String) : Option String :=
  if file_type = "image" ∨ file_type = "animated_image" then
    match env.imageOpen with
    | none => none
    | some img =>
        let fmt := if img.format = "GIF" then "gif"
          else if img.format = "WEBP" then "webp" else "jpeg"
        let cache_path := cacheDir ++ "/" ++ file_hash ++ "." ++ fmt
        if file_type = "animated_image" ∧ img.isAnimated then
          if img.frameCount > 0 then
            if env.imageSaveOk then some cache_path else none
          else some cache_path
        else
          if env.imageSaveOk then some cache_path else none
  else if file_type = "video" then
    if env.videoReadOk then
      if env.videoSaveOk then some (cacheDir ++ "/" ++ file_hash ++ ".jpeg") else none
    else none
  else none


/-! ### Folder topology resolver (`get_dynamic_folder_config`)

The resolver walks `BASE_OUTPUT_PATH` and builds a mapping from folder keys
to folder entries.  The embedding represents a relative folder path as its
list of components (`RelPath`) and the walk's output as the list of all
directories below the root, as component lists, in walk order; `os.walk`
yields every directory exactly once and yields a directory only after its
parent, and prunes the two reserved cache folders (and with them their
subtrees), which the model expresses by filtering out every path containing
a reserved component.  The source keys entries by
`path_to_key(relative_path)` with the sentinel `'_root_'` for the root; by
the round-trip theorem for `path_to_key` that encoding is injective and
never collides with the sentinel, so the model keys entries by the relative
path itself under a distinguished root constructor.  Python sorts the paths
by `count('/')`, which on component lists is `length - 1`; the model sorts
by `length`, the same order. -/

abbrev RelPath := List String

/-- A folder key: the `'_root_'` sentinel or the encoded relative path. -/
inductive FKey where
  | root : FKey
  | path : RelPath → FKey
deriving DecidableEq, Repr

/-- One entry of the dynamic folder configuration (`path` is recoverable
from `relativePath` plus the base path and is omitted). -/
structure FolderNode where
  displayName : String
  relativePath : RelPath
  parent : Option FKey
  children : List FKey
deriving DecidableEq, Repr

/-- The configuration dict, as an insertion-ordered association list. -/
abbrev FolderConfig := List (FKey × FolderNode)

/-- `key in dynamic_config`. -/
def cfgHas (c : FolderConfig) (k : FKey) : Bool :=
  c.any (fun kv => kv.1 = k)

/-- `dynamic_config[key]` as a total lookup. -/
def cfgGet (c : FolderConfig) (k : FKey) : Option FolderNode :=
  (c.find? (fun kv => kv.1 = k)).map (fun kv => kv.2)

/-- The keys of the configuration, in insertion order. -/
def cfgKeys (c : FolderConfig) : List FKey :=
  c.map (fun kv => kv.1)

/-- `dynamic_config[key] = value`: overwrite in place if present, else
append (Python dict assignment). -/
def cfgSet (c : FolderConfig) (k : FKey) (v : FolderNode) : FolderConfig :=
  if cfgHas c k then c.map (fun kv => if kv.1 = k then (k, v) else kv)
  else c ++ [(k, v)]

/-- `dynamic_config[key]['children'].append(child)`. -/
def cfgAddChild (c : FolderConfig) (k child : FKey) : FolderConfig :=
  c.map (fun kv =>
    if kv.1 = k then (kv.1, { kv.2 with children := kv.2.children ++ [child] }) else kv)

/-- The parent key of a relative path: `'_root_'` when its dirname is
empty, else the dirname's key. -/
def parentKeyOf (r : RelPath) : FKey :=
  if r.dropLast = [] then FKey.root else FKey.path r.dropLast

/-- The synthetic `'_root_'` entry the configuration starts from. -/
def rootNode : FolderNode :=
  { displayName := "Main", relativePath := [], parent := none, children := [] }

/-- The `if parent_key not in dynamic_config` branch: synthesize the parent
entry when a walk-ordering gap left it missing (its display name is the
dirname's basename, its parent is resolved one level further up). -/
def synthParent (c : FolderConfig) (rel : RelPath) : FolderConfig :=
  if cfgHas c (parentKeyOf rel) then c
  else
    cfgSet c (parentKeyOf rel)
      { displayName := ((rel.dropLast).getLast?).getD ""
        relativePath := rel.dropLast
        parent := some (parentKeyOf rel.dropLast)
        children := [] }

/-- Processing of one discovered folder, in depth order: synthesize the
parent entry if missing, register the folder as a child of its parent
(guarded, as in the source, by the parent key now being present), then
insert the folder's own entry. -/
def topoStep (c : FolderConfig) (rel : RelPath) : FolderConfig :=
  cfgSet
    (if cfgHas (synthParent c rel) (parentKeyOf rel) then
       cfgAddChild (synthParent c rel) (parentKeyOf rel) (FKey.path rel)
     else synthParent c rel)
    (FKey.path rel)
    { displayName := (rel.getLast?).getD ""
      relativePath := rel
      parent := some (parentKeyOf rel)
      children := [] }

/-- A component survives the walk's pruning of the reserved cache folders. -/
def notReserved (comp : String) : Bool :=
  ¬(comp = ".thumbnails_cache" ∨ comp = ".sqlite_cache")

/-- The directories the pruned walk yields: every directory below the root
none of whose path components is a reserved cache-folder name. -/
def walkDirs (tree : List RelPath) : List RelPath :=
  tree.filter (fun p => p.all notReserved)

/-- Depth order on relative paths (`sorted(..., key=lambda x: x.count('/'))`). -/
def depthLe (a b : RelPath) : Prop := a.length ≤ b.length

instance : DecidableRel depthLe := fun a b => Nat.decLe a.length b.length

instance : IsTotal RelPath depthLe := ⟨fun a b => Nat.le_total a.length b.length⟩

instance : IsTrans RelPath depthLe := ⟨fun _ _ _ => Nat.le_trans⟩

/-- `get_dynamic_folder_config(force_refresh=True)` as a function of the
walked directory tree: filter reserved folders, sort by depth, and fold the
per-folder step over the configuration seeded with the root entry. -/
def get_dynamic_folder_config (tree : List RelPath) : FolderConfig :=
  (List.insertionSort depthLe (walkDirs tree)).foldl topoStep [(FKey.root, rootNode)]

/-- Reachability from the root along `children` links. -/
inductive Reachable (c : FolderConfig) : FKey → Prop where
  | root : Reachable c FKey.root
  | child {k ck : FKey} {v : FolderNode} :
      Reachable c k → cfgGet c k = some v → ck ∈ v.children → Reachable c ck

/-- Invariant of the configuration after the depth-ordered fold has
processed the folders in `done`: the keys are the root followed by the
processed folders in order, the root entry has no parent, every processed
folder's entry points at its parent key, and is registered in its parent's
`children` list. -/
structure TopoInv (done : List RelPath) (c : FolderConfig) : Prop where
  keys_eq : cfgKeys c = FKey.root :: done.map FKey.path
  root_parent : ∃ v, cfgGet c FKey.root = some v ∧ v.parent = none
  path_parent : ∀ r ∈ done, ∃ v, cfgGet c (FKey.path r) = some v ∧ v.parent = some (parentKeyOf r)
  child_link : ∀ r ∈ done, ∃ v, cfgGet c (parentKeyOf r) = some v ∧ FKey.path r ∈ v.children


/-! ### Index Store and synchronization engine

The SQLite `files` table becomes a list of rows in insertion order.  `mtime`
is `REAL` in the schema; the sync logic only compares mtimes, so it is
modelled by `Int`.  `hashlib.md5(...).hexdigest()` is an external library
function and is threaded through the definitions as a parameter
`md5f : String → String`; the theorems that need it assume it injective
(real md5 collisions are out of the model).  The prober is likewise threaded
as `probe : String → Metadata` (see `analyze_file_metadata`).  Thumbnail
generation inside the sync loop writes no store state and is therefore not
part of the store model (claim C7 covers it separately).  The filesystem
input is the list of regular files directly inside folders (`DiskFile`);
`os.path.isfile` is absorbed by that choice, and a folder path failing
`os.path.isdir` simply lists no files. -/

/-- One row of the `files` table.  `type` is named `typ` (`type` is reserved
in Lean); `is_favorite` carries the schema default 0 on insert. -/
structure FileRow where
  id : String
  path : String
  mtime : Int
  name : String
  typ : String
  duration : String
  dimensions : String
  has_workflow : Nat
  is_favorite : Nat
deriving DecidableEq, Repr

/-- A live regular file directly inside `folder`, with its name and
modification time. -/
structure DiskFile where
  folder : String
  name : String
  mtime : Int
deriving DecidableEq, Repr

/-- `os.path.join(folder_path, name)` on POSIX. -/
def filePath (e : DiskFile) : String := e.folder ++ "/" ++ e.name

/-- Python dict assignment `d[k] = v` on a string-keyed dict represented as
an insertion-ordered association list: overwrite in place if the key is
present, else append. -/
def dictInsert (d : List (String × Int)) (k : String) (v : Int) : List (String × Int) :=
  if d.any (fun kv => kv.1 = k) then d.map (fun kv => if kv.1 = k then (k, v) else kv)
  else d ++ [(k, v)]

/-- The keys of a dict, in insertion order. -/
def dictKeys (d : List (String × Int)) : List String := d.map (fun kv => kv.1)

/-- Dict lookup. -/
def dictGet (d : List (String × Int)) (k : String) : Option Int :=
  (d.find? (fun kv => kv.1 = k)).map (fun kv => kv.2)

/-- `d.get(k, v0)`. -/
def dictGetD (d : List (String × Int)) (k : String) (v0 : Int) : Int :=
  (dictGet d k).getD v0

/-- The full pass's extension test:
`os.path.splitext(name)[1].lower() not in ['.json', '.sqlite']`. -/
def extOKFull (e : DiskFile) : Bool :=
  ¬(pyExtLower e.name = ".json" ∨ pyExtLower e.name = ".sqlite")

/-- One step of building `disk_files` in `full_sync_database`: skip the
reserved extensions `.json` / `.sqlite`, else record the joined path and
mtime. -/
def diskStep (a : List (String × Int)) (e : DiskFile) : List (String × Int) :=
  if extOKFull e then dictInsert a (filePath e) e.mtime else a

/-- The `disk_files` dict of `full_sync_database`: for every resolved folder,
list its immediate files and record those without a reserved extension. -/
def fullDiskFiles (folders : List String) (fs : List DiskFile) : List (String × Int) :=
  folders.foldl (fun acc F => (fs.filter (fun e => e.folder = F)).foldl diskStep acc) []

/-- The `db_files` dict: `{row['path']: row['mtime'] for row in ...}`. -/
def dbFilesOf (db : List FileRow) : List (String × Int) :=
  db.foldl (fun a r => dictInsert a r.path r.mtime) []

/-- `to_add = set(disk_files) - set(db_files)` (as a duplicate-free list of
keys of the disk dict). -/
def toAdd (disk dbf : List (String × Int)) : List String :=
  (dictKeys disk).filter (fun p => decide (p ∉ dictKeys dbf))

/-- `to_delete = set(db_files) - set(disk_files)`. -/
def toDelete (disk dbf : List (String × Int)) : List String :=
  (dictKeys dbf).filter (fun p => decide (p ∉ dictKeys disk))

/-- `to_update = {path for path in to_check if disk_files.get(path, 0) >
db_files.get(path, 0)}` with `to_check = set(disk_files) & set(db_files)`. -/
def toUpdate (disk dbf : List (String × Int)) : List String :=
  (dictKeys disk).filter (fun p =>
    decide (p ∈ dictKeys dbf) && decide (dictGetD disk p 0 > dictGetD dbf p 0))

/-- The row tuple appended to `data_to_upsert`: `(md5(path), path, mtime,
basename(path), *metadata.values())`.  The `INSERT OR REPLACE` statement
lists eight columns; `is_favorite` is not among them, so the inserted row
carries the schema default 0. -/
def mkRow (md5f : String → String) (probe : String → Metadata) (p : String) (mt : Int) :
    FileRow :=
  { id := md5f p, path := p, mtime := mt, name := basename p,
    typ := (probe p).typ, duration := (probe p).duration,
    dimensions := (probe p).dimensions, has_workflow := (probe p).has_workflow,
    is_favorite := 0 }

/-- `INSERT OR REPLACE` of one row: SQLite deletes every row conflicting on
the `id` primary key or the `path` unique constraint, then inserts the new
row. -/
def upsertRow (db : List FileRow) (r : FileRow) : List FileRow :=
  (db.filter (fun q => decide ¬(q.id = r.id ∨ q.path = r.path))) ++ [r]

/-- `executemany` of the upsert statement. -/
def applyUpserts (db : List FileRow) (rows : List FileRow) : List FileRow :=
  rows.foldl upsertRow db

/-- `executemany("DELETE FROM files WHERE path = ?", ...)` /
`DELETE FROM files WHERE path IN (...)`. -/
def applyDeletes (db : List FileRow) (paths : List String) : List FileRow :=
  db.filter (fun q => decide (q.path ∉ paths))

/-- The rows built for `files_to_process = to_add.union(to_update)` (the
model fixes the enumeration order of the Python set union as adds before
updates; every property stated about the result is order-independent). -/
def upsertRowsOf (md5f : String → String) (probe : String → Metadata)
    (disk dbf : List (String × Int)) : List FileRow :=
  (toAdd disk dbf ++ toUpdate disk dbf).map (fun p => mkRow md5f probe p (dictGetD disk p 0))

/-- `full_sync_database(conn)` as a function from the pre-pass table to the
post-commit table. -/
def full_sync_database (md5f : String → String) (probe : String → Metadata)
    (folders : List String) (fs : List DiskFile) (db : List FileRow) : List FileRow :=
  applyDeletes
    (applyUpserts db (upsertRowsOf md5f probe (fullDiskFiles folders fs) (dbFilesOf db)))
    (toDelete (fullDiskFiles folders fs) (dbFilesOf db))

/-- The `valid_extensions` whitelist of `sync_folder_on_demand`. -/
def validExtensions : List String :=
  [".png", ".jpg", ".jpeg", ".gif", ".webp", ".mp4", ".mkv", ".webm", ".mov", ".avi",
   ".mp3", ".wav", ".ogg", ".flac"]

/-- The scoped pass's extension test:
`os.path.splitext(name)[1].lower() in valid_extensions`. -/
def extOKScoped (e : DiskFile) : Bool :=
  pyExtLower e.name ∈ validExtensions

/-- The `disk_files` dict of `sync_folder_on_demand`: the folder's immediate
files whose extension is whitelisted. -/
def scopedDiskFiles (fs : List DiskFile) (folder : String) : List (String × Int) :=
  (fs.filter (fun e => e.folder = folder)).foldl
    (fun a e => if extOKScoped e then dictInsert a (filePath e) e.mtime else a) []

/-- SQLite `LIKE` matching (default ASCII-case-insensitive): `%` matches any
sequence, `_` any single character. -/
def likeMatch : List Char → List Char → Bool
  | [], [] => true
  | [], _ :: _ => false
  | '%' :: ps, s =>
      likeMatch ps s ||
        (match s with
          | [] => false
          | _ :: s2 => likeMatch ('%' :: ps) s2)
  | '_' :: ps, _ :: s2 => likeMatch ps s2
  | '_' :: _, [] => false
  | pc :: ps, c :: s2 => (asciiLower pc = asciiLower c) && likeMatch ps s2
  | _ :: _, [] => false
termination_by p s => (s.length, p.length)

/-- The scoped Index Store query: rows whose path `LIKE folder + '/' + '%'`,
then the Python-side guard `os.path.dirname(row['path']) == folder_path`
(the source wraps both sides in `os.path.normpath`; folder paths from the
resolver and paths written by the sync passes are already normalized, on
which `normpath` is the identity). -/
def scopedDbSelect (db : List FileRow) (folder : String) : List FileRow :=
  (db.filter (fun r => likeMatch (folder ++ "/%").data r.path.data)).filter
    (fun r => dirname r.path = folder)

/-- `sync_folder_on_demand(folder_path)` as a function from the pre-pass
table to the post-commit table. -/
def sync_folder_on_demand (md5f : String → String) (probe : String → Metadata)
    (fs : List DiskFile) (folder : String) (db : List FileRow) : List FileRow :=
  applyDeletes
    (applyUpserts db
      (upsertRowsOf md5f probe (scopedDiskFiles fs folder)
        (dbFilesOf (scopedDbSelect db folder))))
    (toDelete (scopedDiskFiles fs folder) (dbFilesOf (scopedDbSelect db folder)))

/-- Row lookup by path in the table. -/
def rowLookup (db : List FileRow) (p : String) : Option FileRow :=
  db.find? (fun r => r.path = p)

/-! ### Transaction model (claim C9)

A connection holds a committed state (what other readers see) and a pending
state (what this transaction sees).  `execute`/`executemany` act on the
pending state only; the single `conn.commit()` at the end of a pass
publishes it.  A failure before the commit (exception, crash) discards the
pending state — SQLite rolls the transaction back — leaving the committed
state untouched. -/

/-- One SQL statement the pass executes. -/
inductive DbOp where
  | upsert (r : FileRow)
  | del (p : String)
deriving DecidableEq, Repr

/-- Effect of one statement on the (pending) table. -/
def execOp (st : List FileRow) : DbOp → List FileRow
  | .upsert r => upsertRow st r
  | .del p => st.filter (fun q => decide (q.path ≠ p))

/-- Executing a list of statements in order. -/
def runOps (st : List FileRow) (ops : List DbOp) : List FileRow :=
  ops.foldl execOp st

/-- The complete statement list of one full pass: all upserts, then all
deletes; the pass reads the table once at its start (the pending state,
equal to the committed state when the pass begins). -/
def fullSyncOps (md5f : String → String) (probe : String → Metadata)
    (folders : List String) (fs : List DiskFile) (db : List FileRow) : List DbOp :=
  (upsertRowsOf md5f probe (fullDiskFiles folders fs) (dbFilesOf db)).map DbOp.upsert
    ++ (toDelete (fullDiskFiles folders fs) (dbFilesOf db)).map DbOp.del

/-- A connection: committed state (visible to readers) and pending state
(visible inside the transaction). -/
structure Conn where
  committed : List FileRow
  pending : List FileRow
deriving DecidableEq, Repr

/-- The connection after the pass has executed its first `k` statements and
then stopped short of the commit (failure or crash). -/
def passAborted (md5f : String → String) (probe : String → Metadata)
    (folders : List String) (fs : List DiskFile) (c : Conn) (k : Nat) : Conn :=
  { committed := c.committed,
    pending := runOps c.pending ((fullSyncOps md5f probe folders fs c.pending).take k) }

/-- The connection after the pass ran to completion and committed. -/
def passCommitted (md5f : String → String) (probe : String → Metadata)
    (folders : List String) (fs : List DiskFile) (c : Conn) : Conn :=
  { committed := runOps c.pending (fullSyncOps md5f probe folders fs c.pending),
    pending := runOps c.pending (fullSyncOps md5f probe folders fs c.pending) }

/-! ## Theorems -/

theorem decSext_encSext : ∀ s, s < 64 → decSext (encSext s) = some s := by decide

theorem encSext_ne_61 : ∀ s, s < 64 → encSext s ≠ 61 := by decide

theorem b64decode_b64encode (p : List Nat) (h : ∀ b ∈ p, b < 256) :
    b64decode (b64encode p) = some p := by
  induction p using b64encode.induct with
  | case1 => decide
  | case2 a =>
      have ha : a < 256 := h a (by simp)
      have h1 : a / 4 < 64 := by omega
      have h2 : a % 4 * 16 < 64 := by omega
      simp only [b64encode, b64decode, decSext_encSext _ h1, decSext_encSext _ h2,
        Option.some_bind]
      simp only [and_self, if_true, true_and, if_pos rfl, Option.some.injEq, List.cons.injEq,
        and_true]
      omega
  | case3 a b =>
      have ha : a < 256 := h a (by simp)
      have hb : b < 256 := h b (by simp)
      have h1 : a / 4 < 64 := by omega
      have h2 : a % 4 * 16 + b / 16 < 64 := by omega
      have h3 : b % 16 * 4 < 64 := by omega
      simp only [b64encode, b64decode, decSext_encSext _ h1, decSext_encSext _ h2,
        decSext_encSext _ h3, Option.some_bind]
      rw [if_neg (by simp [encSext_ne_61 _ h3]), if_pos (by simp)]
      simp only [Option.some_bind, Option.some.injEq, List.cons.injEq, and_true]
      constructor <;> omega
  | case4 a b c rest ih =>
      have ha : a < 256 := h a (by simp)
      have hb : b < 256 := h b (by simp)
      have hc : c < 256 := h c (by simp)
      have h1 : a / 4 < 64 := by omega
      have h2 : a % 4 * 16 + b / 16 < 64 := by omega
      have h3 : b % 16 * 4 + c / 64 < 64 := by omega
      have h4 : c % 64 < 64 := by omega
      have hrest : ∀ x ∈ rest, x < 256 := fun x hx => h x (by simp [hx])
      simp only [b64encode, b64decode, decSext_encSext _ h1, decSext_encSext _ h2,
        decSext_encSext _ h3, decSext_encSext _ h4, Option.some_bind]
      rw [if_neg (by simp [encSext_ne_61 _ h3]), if_neg (by simp [encSext_ne_61 _ h4])]
      rw [ih hrest]
      simp only [Option.some_bind, Option.some.injEq, List.cons.injEq, and_true]
      refine ⟨by omega, by omega, by omega⟩

theorem length_b64encode (p : List Nat) :
    (b64encode p).length = 4 * ((p.length + 2) / 3) := by
  induction p using b64encode.induct with
  | case1 => simp [b64encode]
  | case2 a => simp [b64encode]
  | case3 a b => simp [b64encode]
  | case4 a b c rest ih =>
      simp only [b64encode, List.length_cons, ih]
      omega

theorem b64encode_ne_rootKey (p : List Nat) (_hp : p ≠ []) :
    b64encode p ≠ rootKeyBytes := by
  intro he
  have h1 : (b64encode p).length = 6 := by rw [he]; rfl
  rw [length_b64encode] at h1
  omega

/-- C10 — folder-key encoding round-trips: for every byte sequence of a
relative path (each byte `< 256`, the UTF-8 bytes of the path string),
`key_to_path (path_to_key p) = p`, including the empty path, which maps to
the sentinel `'_root_'` and back to the empty path. -/
theorem key_to_path_path_to_key (p : List Nat) (h : ∀ b ∈ p, b < 256) :
    key_to_path (path_to_key p) = some p := by
  by_cases hp : p = []
  · subst hp
    rfl
  · rw [path_to_key, if_neg hp, key_to_path, if_neg (b64encode_ne_rootKey p hp)]
    exact b64decode_b64encode p h

theorem key_to_path_path_to_key_witness :
    (∀ b ∈ [104, 105, 47, 106], b < 256) ∧
      key_to_path (path_to_key [104, 105, 47, 106]) = some [104, 105, 47, 106] :=
  ⟨by decide, key_to_path_path_to_key [104, 105, 47, 106] (by decide)⟩

theorem classifyType_mem (img : Option ImgInfo) (ext : String) :
    classifyType img ext = "image" ∨ classifyType img ext = "animated_image" ∨
      classifyType img ext = "video" ∨ classifyType img ext = "audio" ∨
      classifyType img ext = "unknown" := by
  unfold classifyType
  by_cases h : ((typeMap.lookup ext).getD "unknown") = "unknown" ∧ ext = ".webp"
  · rw [if_pos h]
    by_cases ha : is_webp_animated img <;> simp [ha]
  · rw [if_neg h]
    rcases ho : typeMap.lookup ext with _ | v
    · simp
    · have : v = "image" ∨ v = "animated_image" ∨ v = "video" ∨ v = "audio" := by
        revert ho
        unfold typeMap
        simp only [List.lookup]
        repeat' split
        all_goals simp_all
      simp only [ho, Option.getD_some]
      tauto

set_option maxHeartbeats 1600000 in
/-- C6 — the metadata prober never raises (it is a total function of the
file path and the collaborator-outcome oracle) and always returns a complete
record; each internal failure degrades only the field(s) populated from the
failing probe to their empty/default values.  Conjuncts: (1) the returned
media type is always one of the five values; (2) a missing workflow payload
changes only `has_workflow`; (3) even with every collaborator failing the
record is complete, with empty duration/dimensions and `has_workflow = 0`;
(4) for a non-`.webp` file, an image-decode failure leaves an `audio`,
`video` or `unknown` record untouched, empties only `dimensions` for a
static image, and empties only `dimensions` and `duration` for an animated
image; (5) for a video, a capture failure empties only `duration` and
`dimensions` (the two fields read from that probe). -/
theorem analyze_file_metadata_total_and_degrades (webpFps : Rat) (env : ProbeEnv)
    (filepath : String) :
    ((analyze_file_metadata webpFps env filepath).typ = "image" ∨
      (analyze_file_metadata webpFps env filepath).typ = "animated_image" ∨
      (analyze_file_metadata webpFps env filepath).typ = "video" ∨
      (analyze_file_metadata webpFps env filepath).typ = "audio" ∨
      (analyze_file_metadata webpFps env filepath).typ = "unknown") ∧
    (analyze_file_metadata webpFps { env with workflowFound := false } filepath =
      { analyze_file_metadata webpFps env filepath with has_workflow := 0 }) ∧
    ((analyze_file_metadata webpFps ⟨none, none, false⟩ filepath).duration = "" ∧
      (analyze_file_metadata webpFps ⟨none, none, false⟩ filepath).dimensions = "" ∧
      (analyze_file_metadata webpFps ⟨none, none, false⟩ filepath).has_workflow = 0) ∧
    (pyExtLower filepath ≠ ".webp" →
      (((analyze_file_metadata webpFps env filepath).typ = "audio" ∨
          (analyze_file_metadata webpFps env filepath).typ = "video" ∨
          (analyze_file_metadata webpFps env filepath).typ = "unknown") →
        analyze_file_metadata webpFps { env with imageOpen := none } filepath =
          analyze_file_metadata webpFps env filepath) ∧
      ((analyze_file_metadata webpFps env filepath).typ = "image" →
        analyze_file_metadata webpFps { env with imageOpen := none } filepath =
          { analyze_file_metadata webpFps env filepath with dimensions := "" }) ∧
      ((analyze_file_metadata webpFps env filepath).typ = "animated_image" →
        analyze_file_metadata webpFps { env with imageOpen := none } filepath =
          { analyze_file_metadata webpFps env filepath with dimensions := "", duration := "" })) ∧
    ((analyze_file_metadata webpFps env filepath).typ = "video" →
      analyze_file_metadata webpFps { env with videoCap := none } filepath =
        { analyze_file_metadata webpFps env filepath with duration := "", dimensions := "" }) := by
  have htyp : (analyze_file_metadata webpFps env filepath).typ
      = classifyType env.imageOpen (pyExtLower filepath) := rfl
  refine ⟨?_, ?_, ?_, ?_, ?_⟩
  · rw [htyp]
    exact classifyType_mem env.imageOpen (pyExtLower filepath)
  · rfl
  · unfold analyze_file_metadata
    set ext := pyExtLower filepath with hext
    set t := classifyType none ext with ht
    have hd : probeDims none t = "" := by
      unfold probeDims
      split <;> rfl
    have hdd : ∀ d0 : String, durDims webpFps none none ext t d0 = (0, d0) := by
      intro d0
      unfold durDims
      by_cases hv : t = "video"
      · simp [hv]
      · by_cases ha : t = "animated_image" <;> simp [hv, ha]
    refine ⟨?_, ?_, rfl⟩
    · simp [hd, hdd]
    · simp [hd, hdd]
  · intro hwebp
    have hcl : classifyType none (pyExtLower filepath)
        = classifyType env.imageOpen (pyExtLower filepath) := by
      unfold classifyType
      by_cases h : ((typeMap.lookup (pyExtLower filepath)).getD "unknown") = "unknown" ∧
          pyExtLower filepath = ".webp"
      · exact absurd h.2 hwebp
      · rw [if_neg h, if_neg h]
    refine ⟨?_, ?_, ?_⟩
    · intro hcase
      rw [htyp] at hcase
      unfold analyze_file_metadata
      simp only [hcl]
      set ext := pyExtLower filepath with hext
      set t := classifyType env.imageOpen ext with ht
      have hti : ¬(t = "image" ∨ t = "animated_image") := by
        rcases hcase with h | h | h <;> rw [h] <;> decide
      have hpd : ∀ io : Option ImgInfo, probeDims io t = "" := by
        intro io
        unfold probeDims
        rw [if_neg hti]
      have hdd : ∀ (io : Option ImgInfo) (d0 : String),
          durDims webpFps io env.videoCap ext t d0
            = durDims webpFps env.imageOpen env.videoCap ext t d0 := by
        intro io d0
        unfold durDims
        by_cases hv : t = "video"
        · rw [if_pos hv, if_pos hv]
        · have hna : t ≠ "animated_image" := fun hc => hti (Or.inr hc)
          rw [if_neg hv, if_neg hna, if_neg hv, if_neg hna]
      simp only [hpd, hdd]
    · intro hcase
      rw [htyp] at hcase
      unfold analyze_file_metadata
      simp only [hcl]
      set ext := pyExtLower filepath with hext
      set t := classifyType env.imageOpen ext with ht
      have hdd : ∀ (io : Option ImgInfo) (d0 : String),
          durDims webpFps io env.videoCap ext t d0 = (0, d0) := by
        intro io d0
        unfold durDims
        rw [hcase]
        rw [if_neg (by decide), if_neg (by decide)]
      have hpdN : probeDims none t = "" := by
        unfold probeDims
        rw [hcase]
        rw [if_pos (Or.inl rfl)]
      simp [hdd, hpdN]
    · intro hcase
      rw [htyp] at hcase
      unfold analyze_file_metadata
      simp only [hcl]
      set ext := pyExtLower filepath with hext
      set t := classifyType env.imageOpen ext with ht
      have hddN : ∀ d0 : String,
          durDims webpFps none env.videoCap ext t d0 = (0, d0) := by
        intro d0
        unfold durDims
        rw [hcase]
        rw [if_neg (by decide), if_pos rfl]
      have hpdN : probeDims none t = "" := by
        unfold probeDims
        rw [hcase]
        rw [if_pos (Or.inr rfl)]
      simp [hddN, hpdN]
  · intro hcase
    rw [htyp] at hcase
    unfold analyze_file_metadata
    set ext := pyExtLower filepath with hext
    set t := classifyType env.imageOpen ext with ht
    have hpd : probeDims env.imageOpen t = "" := by
      unfold probeDims
      rw [hcase]
      rw [if_neg (by decide)]
    have hddN : ∀ d0 : String,
        durDims webpFps env.imageOpen none ext t d0 = (0, d0) := by
      intro d0
      unfold durDims
      rw [hcase]
      rw [if_pos rfl]
    simp [hddN, hpd]

theorem analyze_file_metadata_total_and_degrades_witness :
    (analyze_file_metadata 12 ⟨none, some ⟨true, 10, 100, 640, 480⟩, true⟩ "/out/a.gif" =
      { analyze_file_metadata 12 ⟨some ⟨64, 32, true, 8, [100, 100]⟩, some ⟨true, 10, 100, 640, 480⟩, true⟩
          "/out/a.gif" with dimensions := "", duration := "" }) ∧
    (analyze_file_metadata 12 ⟨some ⟨64, 32, true, 8, [100, 100]⟩, none, true⟩ "/out/v.mp4" =
      { analyze_file_metadata 12 ⟨some ⟨64, 32, true, 8, [100, 100]⟩, some ⟨true, 10, 100, 640, 480⟩, true⟩
          "/out/v.mp4" with duration := "", dimensions := "" }) :=
  ⟨((analyze_file_metadata_total_and_degrades 12
        ⟨some ⟨64, 32, true, 8, [100, 100]⟩, some ⟨true, 10, 100, 640, 480⟩, true⟩
        "/out/a.gif").2.2.2.1 (by decide)).2.2 (by decide),
    (analyze_file_metadata_total_and_degrades 12
        ⟨some ⟨64, 32, true, 8, [100, 100]⟩, some ⟨true, 10, 100, 640, 480⟩, true⟩
        "/out/v.mp4").2.2.2.2 (by decide)⟩

/-- C7 — the thumbnail generator returns `none` rather than raising whenever
the source cannot be decoded or the media type has no thumbnail
representation (audio, unknown, or any type other than image,
animated_image, video), and a returned thumbnail path implies the input was
one of those three types and its decode step succeeded (`Image.open`
succeeded for images, the first-frame read succeeded for videos). -/
theorem create_thumbnail_null_on_failure (env : ThumbEnv) (cacheDir file_hash : String)
    (file_type : String) :
    ((file_type ≠ "image" ∧ file_type ≠ "animated_image" ∧ file_type ≠ "video") →
      create_thumbnail env cacheDir file_hash file_type = none) ∧
    ((file_type = "image" ∨ file_type = "animated_image") → env.imageOpen = none →
      create_thumbnail env cacheDir file_hash file_type = none) ∧
    (file_type = "video" → env.videoReadOk = false →
      create_thumbnail env cacheDir file_hash file_type = none) ∧
    (∀ p, create_thumbnail env cacheDir file_hash file_type = some p →
      ((file_type = "image" ∨ file_type = "animated_image") ∧ env.imageOpen ≠ none) ∨
        (file_type = "video" ∧ env.videoReadOk = true)) := by
  refine ⟨?_, ?_, ?_, ?_⟩
  · intro h
    unfold create_thumbnail
    rw [if_neg (by tauto), if_neg h.2.2]
  · intro ht hio
    unfold create_thumbnail
    rw [if_pos ht, hio]
  · intro ht hv
    unfold create_thumbnail
    rw [if_neg (by rw [ht]; decide), if_pos ht, hv]
    simp
  · intro p hp
    unfold create_thumbnail at hp
    by_cases h1 : file_type = "image" ∨ file_type = "animated_image"
    · rw [if_pos h1] at hp
      rcases hio : env.imageOpen with _ | img
      · rw [hio] at hp
        simp at hp
      · exact Or.inl ⟨h1, by simp [hio]⟩
    · rw [if_neg h1] at hp
      by_cases h2 : file_type = "video"
      · rw [if_pos h2] at hp
        by_cases h3 : env.videoReadOk
        · exact Or.inr ⟨h2, h3⟩
        · simp [h3] at hp
      · rw [if_neg h2] at hp
        simp at hp

theorem create_thumbnail_null_on_failure_witness :
    (create_thumbnail ⟨some ⟨"PNG", false, 1⟩, true, true, true⟩ "/t" "h" "audio" = none) ∧
    (create_thumbnail ⟨none, true, true, true⟩ "/t" "h" "image" = none) ∧
    (create_thumbnail ⟨some ⟨"PNG", false, 1⟩, true, false, true⟩ "/t" "h" "video" = none) :=
  ⟨(create_thumbnail_null_on_failure ⟨some ⟨"PNG", false, 1⟩, true, true, true⟩
      "/t" "h" "audio").1 (by decide),
    (create_thumbnail_null_on_failure ⟨none, true, true, true⟩ "/t" "h" "image").2.1
      (Or.inl rfl) rfl,
    (create_thumbnail_null_on_failure ⟨some ⟨"PNG", false, 1⟩, true, false, true⟩
      "/t" "h" "video").2.2.1 rfl rfl⟩

theorem cfgHas_iff (c : FolderConfig) (k : FKey) : cfgHas c k = true ↔ k ∈ cfgKeys c := by
  unfold cfgHas cfgKeys
  simp [List.any_eq_true]

theorem cfgGet_none_iff (c : FolderConfig) (k : FKey) :
    cfgGet c k = none ↔ k ∉ cfgKeys c := by
  unfold cfgGet cfgKeys
  rw [Option.map_eq_none', List.find?_eq_none]
  constructor
  · intro h hk
    rcases List.mem_map.mp hk with ⟨kv, hm, he⟩
    exact (h kv hm) (decide_eq_true he)
  · intro h kv hm hd
    exact h (List.mem_map.mpr ⟨kv, hm, of_decide_eq_true hd⟩)

theorem cfgGet_mem {c : FolderConfig} {k : FKey} {v : FolderNode}
    (h : cfgGet c k = some v) : (k, v) ∈ c := by
  unfold cfgGet at h
  rcases Option.map_eq_some.mp h with ⟨kv, hf, hv⟩
  have hk := List.find?_some hf
  have hm := List.mem_of_find?_eq_some hf
  have : kv.1 = k := of_decide_eq_true hk
  rcases kv with ⟨k0, v0⟩
  cases this
  cases hv
  exact hm

theorem mem_cfgKeys_of_cfgGet {c : FolderConfig} {k : FKey} {v : FolderNode}
    (h : cfgGet c k = some v) : k ∈ cfgKeys c := by
  have := cfgGet_mem h
  exact List.mem_map.mpr ⟨(k, v), this, rfl⟩

theorem cfgGet_isSome_of_mem {c : FolderConfig} {k : FKey} (h : k ∈ cfgKeys c) :
    ∃ v, cfgGet c k = some v := by
  rcases ho : cfgGet c k with _ | v
  · exact absurd ((cfgGet_none_iff c k).mp ho) (by simpa using h)
  · exact ⟨v, rfl⟩

theorem cfgKeys_addChild (c : FolderConfig) (k ck : FKey) :
    cfgKeys (cfgAddChild c k ck) = cfgKeys c := by
  unfold cfgKeys cfgAddChild
  rw [List.map_map]
  apply List.map_congr_left
  intro kv _
  by_cases hk : kv.1 = k
  · simp [hk]
  · simp [hk]

theorem cfgGet_addChild_ne (c : FolderConfig) {k k' : FKey} (ck : FKey) (h : k' ≠ k) :
    cfgGet (cfgAddChild c k ck) k' = cfgGet c k' := by
  induction c with
  | nil => rfl
  | cons kv rest ih =>
      unfold cfgAddChild at ih ⊢
      by_cases hk : kv.1 = k
      · have hne : ¬kv.1 = k' := by rw [hk]; exact fun hc => h hc.symm
        simp only [List.map_cons, if_pos hk]
        unfold cfgGet
        rw [List.find?_cons_of_neg _ (by simpa using hne),
          List.find?_cons_of_neg _ (by simpa using hne)]
        exact ih
      · simp only [List.map_cons, if_neg hk]
        by_cases hk' : kv.1 = k'
        · unfold cfgGet
          rw [List.find?_cons_of_pos _ (by simpa using hk'),
            List.find?_cons_of_pos _ (by simpa using hk')]
        · unfold cfgGet
          rw [List.find?_cons_of_neg _ (by simpa using hk'),
            List.find?_cons_of_neg _ (by simpa using hk')]
          exact ih

theorem cfgGet_addChild_self (c : FolderConfig) (k ck : FKey) :
    cfgGet (cfgAddChild c k ck) k
      = (cfgGet c k).map (fun v => { v with children := v.children ++ [ck] }) := by
  induction c with
  | nil => rfl
  | cons kv rest ih =>
      unfold cfgAddChild at ih ⊢
      by_cases hk : kv.1 = k
      · simp only [List.map_cons, if_pos hk]
        unfold cfgGet
        rw [List.find?_cons_of_pos _ (by simpa using hk),
          List.find?_cons_of_pos _ (by simpa using hk)]
        rfl
      · simp only [List.map_cons, if_neg hk]
        unfold cfgGet
        rw [List.find?_cons_of_neg _ (by simpa using hk),
          List.find?_cons_of_neg _ (by simpa using hk)]
        exact ih

theorem cfgGet_append_left {c : FolderConfig} {k : FKey} {v : FolderNode}
    (l : FolderConfig) (h : cfgGet c k = some v) : cfgGet (c ++ l) k = some v := by
  induction c with
  | nil => exact absurd h (by simp [cfgGet])
  | cons kv rest ih =>
      unfold cfgGet at h ⊢
      rw [List.cons_append]
      by_cases hk : kv.1 = k
      · rw [List.find?_cons_of_pos _ (by simpa using hk)] at h
        rw [List.find?_cons_of_pos _ (by simpa using hk)]
        exact h
      · rw [List.find?_cons_of_neg _ (by simpa using hk)] at h
        rw [List.find?_cons_of_neg _ (by simpa using hk)]
        exact ih h

theorem cfgGet_append_right {c : FolderConfig} {k : FKey}
    (l : FolderConfig) (h : cfgGet c k = none) : cfgGet (c ++ l) k = cfgGet l k := by
  induction c with
  | nil => rfl
  | cons kv rest ih =>
      unfold cfgGet at h ⊢
      rw [List.cons_append]
      by_cases hk : kv.1 = k
      · rw [List.find?_cons_of_pos _ (by simpa using hk)] at h
        exact absurd h (by simp)
      · rw [List.find?_cons_of_neg _ (by simpa using hk)] at h
        rw [List.find?_cons_of_neg _ (by simpa using hk)]
        exact ih h

theorem cfgKeys_append (c l : FolderConfig) : cfgKeys (c ++ l) = cfgKeys c ++ cfgKeys l :=
  List.map_append _ _ _

theorem topoInv_init : TopoInv [] [(FKey.root, rootNode)] := by
  refine ⟨rfl, ⟨rootNode, by simp [cfgGet], rfl⟩, ?_, ?_⟩
  · intro r hr
    exact absurd hr (List.not_mem_nil r)
  · intro r hr
    exact absurd hr (List.not_mem_nil r)

theorem topoStep_inv {done : List RelPath} {c : FolderConfig} {rel : RelPath}
    (hinv : TopoInv done c) (hnew : rel ∉ done) (_hrel : rel ≠ [])
    (hpar : rel.dropLast = [] ∨ rel.dropLast ∈ done) :
    TopoInv (done ++ [rel]) (topoStep c rel) := by
  have hparmem : parentKeyOf rel ∈ cfgKeys c := by
    by_cases hd : rel.dropLast = []
    · rw [parentKeyOf, if_pos hd, hinv.keys_eq]
      exact List.mem_cons_self _ _
    · rcases hpar with h | h
      · exact absurd h hd
      · rw [parentKeyOf, if_neg hd, hinv.keys_eq]
        exact List.mem_cons_of_mem _ (List.mem_map.mpr ⟨_, h, rfl⟩)
  have hhas : cfgHas c (parentKeyOf rel) = true := (cfgHas_iff _ _).mpr hparmem
  have hsyn : synthParent c rel = c := by rw [synthParent, if_pos hhas]
  have hknotin : FKey.path rel ∉ cfgKeys (cfgAddChild c (parentKeyOf rel) (FKey.path rel)) := by
    rw [cfgKeys_addChild, hinv.keys_eq]
    intro hmem
    rcases List.mem_cons.mp hmem with he | hm
    · exact FKey.noConfusion he
    · rcases List.mem_map.mp hm with ⟨r, hr, he⟩
      cases FKey.path.inj he
      exact hnew hr
  have hset : topoStep c rel
      = cfgAddChild c (parentKeyOf rel) (FKey.path rel)
        ++ [(FKey.path rel,
             { displayName := (rel.getLast?).getD "", relativePath := rel,
               parent := some (parentKeyOf rel), children := [] })] := by
    unfold topoStep
    rw [hsyn, if_pos hhas]
    unfold cfgSet
    rw [if_neg (fun hc => hknotin ((cfgHas_iff _ _).mp hc))]
  rw [hset]
  refine ⟨?_, ?_, ?_, ?_⟩
  · rw [cfgKeys_append, cfgKeys_addChild, hinv.keys_eq]
    simp [cfgKeys, List.map_append]
  · rcases hinv.root_parent with ⟨v, hv, hvp⟩
    by_cases hpk : FKey.root = parentKeyOf rel
    · rw [hpk] at hv ⊢
      have hself := cfgGet_addChild_self c (parentKeyOf rel) (FKey.path rel)
      rw [hv] at hself
      exact ⟨_, cfgGet_append_left _ hself, hvp⟩
    · have hne := cfgGet_addChild_ne c (FKey.path rel) hpk
      rw [hv] at hne
      exact ⟨v, cfgGet_append_left _ hne, hvp⟩
  · intro r hr
    rcases List.mem_append.mp hr with hd | hd
    · rcases hinv.path_parent r hd with ⟨v, hv, hvp⟩
      by_cases hpk : FKey.path r = parentKeyOf rel
      · rw [hpk] at hv
        rw [hpk]
        have hself := cfgGet_addChild_self c (parentKeyOf rel) (FKey.path rel)
        rw [hv] at hself
        exact ⟨_, cfgGet_append_left _ hself, hvp⟩
      · have hne := cfgGet_addChild_ne c (FKey.path rel) hpk
        rw [hv] at hne
        exact ⟨v, cfgGet_append_left _ hne, hvp⟩
    · have hre : r = rel := by simpa using hd
      rw [hre]
      refine ⟨{ displayName := (rel.getLast?).getD "", relativePath := rel,
                parent := some (parentKeyOf rel), children := [] }, ?_, rfl⟩
      have hnone : cfgGet (cfgAddChild c (parentKeyOf rel) (FKey.path rel)) (FKey.path rel) = none :=
        (cfgGet_none_iff _ _).mpr hknotin
      rw [cfgGet_append_right _ hnone]
      simp [cfgGet]
  · intro r hr
    rcases List.mem_append.mp hr with hd | hd
    · rcases hinv.child_link r hd with ⟨v, hv, hm⟩
      by_cases hpk : parentKeyOf r = parentKeyOf rel
      · rw [hpk] at hv
        rw [hpk]
        have hself := cfgGet_addChild_self c (parentKeyOf rel) (FKey.path rel)
        rw [hv] at hself
        exact ⟨_, cfgGet_append_left _ hself, List.mem_append_left _ hm⟩
      · have hne := cfgGet_addChild_ne c (FKey.path rel) hpk
        rw [hv] at hne
        exact ⟨v, cfgGet_append_left _ hne, hm⟩
    · have hre : r = rel := by simpa using hd
      rw [hre]
      rcases cfgGet_isSome_of_mem hparmem with ⟨w, hw⟩
      have hself := cfgGet_addChild_self c (parentKeyOf rel) (FKey.path rel)
      rw [hw] at hself
      exact ⟨_, cfgGet_append_left _ hself,
        List.mem_append_right _ (List.mem_cons_self _ _)⟩

theorem topo_fold_inv (todo : List RelPath) :
    ∀ (done : List RelPath) (c : FolderConfig),
      TopoInv done c →
      (done ++ todo).Nodup →
      List.Pairwise depthLe todo →
      (∀ r ∈ todo, r ≠ []) →
      (∀ r ∈ todo, r.dropLast = [] ∨ r.dropLast ∈ done ++ todo) →
      TopoInv (done ++ todo) (todo.foldl topoStep c) := by
  induction todo with
  | nil =>
      intro done c hinv _ _ _ _
      simpa using hinv
  | cons rel rest ih =>
      intro done c hinv hnd hsort hne hcl
      have hrel : rel ≠ [] := hne rel (List.mem_cons_self _ _)
      have hnew : rel ∉ done := by
        intro hc
        exact (List.nodup_append.mp hnd).2.2 hc (List.mem_cons_self _ _)
      have hpar : rel.dropLast = [] ∨ rel.dropLast ∈ done := by
        by_cases hd0 : rel.dropLast = []
        · exact Or.inl hd0
        · rcases hcl rel (List.mem_cons_self _ _) with h | h
          · exact Or.inl h
          · rcases List.mem_append.mp h with hmem | hmem
            · exact Or.inr hmem
            · exfalso
              have hlen : 0 < rel.length := List.length_pos.mpr hrel
              rcases List.mem_cons.mp hmem with he | hmem2
              · have := congrArg List.length he
                rw [List.length_dropLast] at this
                omega
              · have hle := (List.pairwise_cons.mp hsort).1 _ hmem2
                unfold depthLe at hle
                have hdl : rel.dropLast.length = rel.length - 1 := List.length_dropLast rel
                omega
      have hstep := topoStep_inv hinv hnew hrel hpar
      have hres := ih (done ++ [rel]) (topoStep c rel) hstep
        (by simpa [List.append_assoc] using hnd)
        (List.pairwise_cons.mp hsort).2
        (fun r hr => hne r (List.mem_cons_of_mem _ hr))
        (fun r hr => by
          rcases hcl r (List.mem_cons_of_mem _ hr) with h | h
          · exact Or.inl h
          · exact Or.inr (by simpa [List.append_assoc] using h))
      simpa [List.append_assoc] using hres

theorem fkey_path_injective : Function.Injective FKey.path :=
  fun _ _ h => FKey.path.inj h

theorem reachable_of_inv {done : List RelPath} {c : FolderConfig}
    (hinv : TopoInv done c)
    (hne : ∀ r ∈ done, r ≠ [])
    (hcl : ∀ r ∈ done, r.dropLast = [] ∨ r.dropLast ∈ done) :
    ∀ r ∈ done, Reachable c (FKey.path r) := by
  have key : ∀ n : Nat, ∀ r ∈ done, r.length ≤ n → Reachable c (FKey.path r) := by
    intro n
    induction n with
    | zero =>
        intro r hr hlen
        exact absurd (List.length_eq_zero.mp (Nat.le_zero.mp hlen)) (hne r hr)
    | succ n ih =>
        intro r hr hlen
        rcases hinv.child_link r hr with ⟨v, hv, hm⟩
        have hpar : Reachable c (parentKeyOf r) := by
          unfold parentKeyOf
          by_cases hd : r.dropLast = []
          · rw [if_pos hd]
            exact Reachable.root
          · rw [if_neg hd]
            rcases hcl r hr with h | h
            · exact absurd h hd
            · apply ih r.dropLast h
              have h1 : r.dropLast.length = r.length - 1 := List.length_dropLast r
              have h2 : 0 < r.length := List.length_pos.mpr (hne r hr)
              omega
        exact Reachable.child hpar hv hm
  intro r hr
  exact key r.length r hr le_rfl

theorem walkDirs_closed {tree : List RelPath}
    (hcl : ∀ p ∈ tree, p.dropLast = [] ∨ p.dropLast ∈ tree) :
    ∀ p ∈ walkDirs tree, p.dropLast = [] ∨ p.dropLast ∈ walkDirs tree := by
  intro p hp
  rcases List.mem_filter.mp hp with ⟨hmem, hall⟩
  rcases hcl p hmem with h | h
  · exact Or.inl h
  · refine Or.inr (List.mem_filter.mpr ⟨h, ?_⟩)
    have hsub : List.Sublist p.dropLast p := List.dropLast_sublist p
    rw [List.all_eq_true] at hall ⊢
    exact fun x hx => hall x (hsub.mem hx)

/-- C8: `get_dynamic_folder_config` builds a well-formed tree over the walked
directories: the key set is exactly the root plus one key per surviving
directory with no duplicates, the root entry is the unique parentless entry,
every directory entry points at its parent key which is itself present, and
every key is reachable from the root along `children` links. -/
theorem get_dynamic_folder_config_is_tree (tree : List RelPath)
    (hnd : tree.Nodup)
    (hne : ∀ p ∈ tree, p ≠ [])
    (hcl : ∀ p ∈ tree, p.dropLast = [] ∨ p.dropLast ∈ tree) :
    (cfgKeys (get_dynamic_folder_config tree)).Nodup ∧
      (∀ k, k ∈ cfgKeys (get_dynamic_folder_config tree) ↔
        k = FKey.root ∨ ∃ p ∈ walkDirs tree, k = FKey.path p) ∧
      (∃ v, cfgGet (get_dynamic_folder_config tree) FKey.root = some v ∧ v.parent = none) ∧
      (∀ p ∈ walkDirs tree, ∃ v,
        cfgGet (get_dynamic_folder_config tree) (FKey.path p) = some v ∧
          v.parent = some (parentKeyOf p) ∧
          parentKeyOf p ∈ cfgKeys (get_dynamic_folder_config tree)) ∧
      (∀ k ∈ cfgKeys (get_dynamic_folder_config tree),
        Reachable (get_dynamic_folder_config tree) k) := by
  have hwnd : (walkDirs tree).Nodup := by
    unfold walkDirs
    exact hnd.filter _
  have hperm : List.Perm (List.insertionSort depthLe (walkDirs tree)) (walkDirs tree) :=
    List.perm_insertionSort depthLe (walkDirs tree)
  have hsnd : (List.insertionSort depthLe (walkDirs tree)).Nodup := hperm.nodup_iff.mpr hwnd
  have hsorted : List.Pairwise depthLe (List.insertionSort depthLe (walkDirs tree)) :=
    List.sorted_insertionSort depthLe (walkDirs tree)
  have hwcl := walkDirs_closed hcl
  have hmem : ∀ p, p ∈ List.insertionSort depthLe (walkDirs tree) ↔ p ∈ walkDirs tree :=
    fun _ => hperm.mem_iff
  have hsne : ∀ p ∈ List.insertionSort depthLe (walkDirs tree), p ≠ [] := by
    intro p hp
    exact hne p (List.mem_of_mem_filter ((hmem p).mp hp))
  have hscl : ∀ p ∈ List.insertionSort depthLe (walkDirs tree),
      p.dropLast = [] ∨
        p.dropLast ∈ ([] : List RelPath) ++ List.insertionSort depthLe (walkDirs tree) := by
    intro p hp
    rcases hwcl p ((hmem p).mp hp) with h | h
    · exact Or.inl h
    · exact Or.inr (by simpa using (hmem _).mpr h)
  have hinv0 := topo_fold_inv (List.insertionSort depthLe (walkDirs tree)) [] _ topoInv_init
    (by simpa using hsnd) hsorted hsne hscl
  have hinv : TopoInv (List.insertionSort depthLe (walkDirs tree))
      (get_dynamic_folder_config tree) := by
    simpa [get_dynamic_folder_config] using hinv0
  have hscl2 : ∀ r ∈ List.insertionSort depthLe (walkDirs tree),
      r.dropLast = [] ∨ r.dropLast ∈ List.insertionSort depthLe (walkDirs tree) := by
    intro r hr
    rcases hscl r hr with h | h
    · exact Or.inl h
    · exact Or.inr (by simpa using h)
  refine ⟨?_, ?_, hinv.root_parent, ?_, ?_⟩
  · rw [hinv.keys_eq]
    refine List.nodup_cons.mpr ⟨?_, hsnd.map fkey_path_injective⟩
    intro hmemr
    rcases List.mem_map.mp hmemr with ⟨p, _, hp⟩
    exact FKey.noConfusion hp
  · intro k
    rw [hinv.keys_eq]
    constructor
    · intro hk
      rcases List.mem_cons.mp hk with h | h
      · exact Or.inl h
      · rcases List.mem_map.mp h with ⟨p, hp, he⟩
        exact Or.inr ⟨p, (hmem p).mp hp, he.symm⟩
    · intro hk
      rcases hk with h | ⟨p, hp, he⟩
      · exact h ▸ List.mem_cons_self _ _
      · exact List.mem_cons_of_mem _ (List.mem_map.mpr ⟨p, (hmem p).mpr hp, he.symm⟩)
  · intro p hp
    rcases hinv.path_parent p ((hmem p).mpr hp) with ⟨v, hv, hvp⟩
    refine ⟨v, hv, hvp, ?_⟩
    rw [hinv.keys_eq]
    unfold parentKeyOf
    by_cases hd : p.dropLast = []
    · rw [if_pos hd]
      exact List.mem_cons_self _ _
    · rw [if_neg hd]
      rcases hwcl p hp with h | h
      · exact absurd h hd
      · exact List.mem_cons_of_mem _ (List.mem_map.mpr ⟨p.dropLast, (hmem _).mpr h, rfl⟩)
  · intro k hk
    rw [hinv.keys_eq] at hk
    rcases List.mem_cons.mp hk with h | h
    · exact h ▸ Reachable.root
    · rcases List.mem_map.mp h with ⟨p, hp, he⟩
      exact he ▸ reachable_of_inv hinv hsne hscl2 p hp

theorem get_dynamic_folder_config_is_tree_witness :
    ([["a"], ["a", "b"], [".thumbnails_cache"]] : List RelPath).Nodup ∧
      (cfgKeys (get_dynamic_folder_config
        [["a"], ["a", "b"], [".thumbnails_cache"]])).Nodup :=
  ⟨by decide,
    (get_dynamic_folder_config_is_tree [["a"], ["a", "b"], [".thumbnails_cache"]]
      (by decide) (by decide) (by decide)).1⟩

theorem dict_any_iff (d : List (String × Int)) (k : String) :
    d.any (fun kv => kv.1 = k) = true ↔ k ∈ dictKeys d := by
  unfold dictKeys
  simp [List.any_eq_true]

theorem dictGet_none_iff (d : List (String × Int)) (k : String) :
    dictGet d k = none ↔ k ∉ dictKeys d := by
  unfold dictGet dictKeys
  rw [Option.map_eq_none', List.find?_eq_none]
  constructor
  · intro h hk
    rcases List.mem_map.mp hk with ⟨kv, hm, he⟩
    exact (h kv hm) (decide_eq_true he)
  · intro h kv hm hd
    exact h (List.mem_map.mpr ⟨kv, hm, of_decide_eq_true hd⟩)

theorem dictGet_isSome_of_mem {d : List (String × Int)} {k : String}
    (h : k ∈ dictKeys d) : ∃ v, dictGet d k = some v := by
  rcases ho : dictGet d k with _ | v
  · exact absurd ((dictGet_none_iff d k).mp ho) (by simpa using h)
  · exact ⟨v, rfl⟩

theorem dictKeys_insert_mem (d : List (String × Int)) (k : String) (v : Int)
    (h : k ∈ dictKeys d) : dictKeys (dictInsert d k v) = dictKeys d := by
  unfold dictInsert
  rw [if_pos ((dict_any_iff d k).mpr h)]
  unfold dictKeys
  rw [List.map_map]
  apply List.map_congr_left
  intro kv _
  by_cases hk : kv.1 = k
  · simp [hk]
  · simp [hk]

theorem dictKeys_insert_notmem (d : List (String × Int)) (k : String) (v : Int)
    (h : k ∉ dictKeys d) : dictKeys (dictInsert d k v) = dictKeys d ++ [k] := by
  unfold dictInsert
  rw [if_neg (fun hc => h ((dict_any_iff d k).mp hc))]
  unfold dictKeys
  rw [List.map_append]
  rfl

theorem mem_dictKeys_insert (d : List (String × Int)) (k x : String) (v : Int) :
    x ∈ dictKeys (dictInsert d k v) ↔ x ∈ dictKeys d ∨ x = k := by
  by_cases h : k ∈ dictKeys d
  · rw [dictKeys_insert_mem d k v h]
    constructor
    · exact Or.inl
    · rintro (hx | hx)
      · exact hx
      · exact hx ▸ h
  · rw [dictKeys_insert_notmem d k v h, List.mem_append]
    simp

theorem dictKeys_insert_nodup (d : List (String × Int)) (k : String) (v : Int)
    (h : (dictKeys d).Nodup) : (dictKeys (dictInsert d k v)).Nodup := by
  by_cases hk : k ∈ dictKeys d
  · rw [dictKeys_insert_mem d k v hk]
    exact h
  · rw [dictKeys_insert_notmem d k v hk]
    simp [List.nodup_append, h, hk]

theorem dictGet_map_update_ne (d : List (String × Int)) {k x : String} (v : Int)
    (h : x ≠ k) :
    dictGet (d.map (fun kv => if kv.1 = k then (k, v) else kv)) x = dictGet d x := by
  induction d with
  | nil => rfl
  | cons kv rest ih =>
      unfold dictGet at ih ⊢
      rw [List.map_cons]
      by_cases hk : kv.1 = k
      · rw [if_pos hk,
          List.find?_cons_of_neg _ (by simpa using fun hc => h hc.symm),
          List.find?_cons_of_neg _
            (by intro hc; exact h ((of_decide_eq_true hc) ▸ hk))]
        exact ih
      · rw [if_neg hk]
        by_cases hx : kv.1 = x
        · rw [List.find?_cons_of_pos _ (by simpa using hx),
            List.find?_cons_of_pos _ (by simpa using hx)]
        · rw [List.find?_cons_of_neg _ (by simpa using hx),
            List.find?_cons_of_neg _ (by simpa using hx)]
          exact ih

theorem dictGet_map_update_self (d : List (String × Int)) (k : String) (v : Int)
    (h : k ∈ dictKeys d) :
    dictGet (d.map (fun kv => if kv.1 = k then (k, v) else kv)) k = some v := by
  induction d with
  | nil => exact absurd h (by simp [dictKeys])
  | cons kv rest ih =>
      unfold dictGet at ih ⊢
      rw [List.map_cons]
      by_cases hk : kv.1 = k
      · rw [if_pos hk, List.find?_cons_of_pos _ (by simp)]
        rfl
      · rw [if_neg hk, List.find?_cons_of_neg _ (by simpa using hk)]
        apply ih
        unfold dictKeys at h ⊢
        rw [List.map_cons] at h
        rcases List.mem_cons.mp h with h0 | h0
        · exact absurd h0.symm hk
        · exact h0

theorem dictGet_append_single_ne (d : List (String × Int)) {k x : String} (v : Int)
    (h : x ≠ k) : dictGet (d ++ [(k, v)]) x = dictGet d x := by
  induction d with
  | nil =>
      unfold dictGet
      simp only [List.nil_append]
      rw [List.find?_cons_of_neg _ (by simpa using fun hc => h hc.symm)]
  | cons kv rest ih =>
      unfold dictGet at ih ⊢
      rw [List.cons_append]
      by_cases hx : kv.1 = x
      · rw [List.find?_cons_of_pos _ (by simpa using hx),
          List.find?_cons_of_pos _ (by simpa using hx)]
      · rw [List.find?_cons_of_neg _ (by simpa using hx),
          List.find?_cons_of_neg _ (by simpa using hx)]
        exact ih

theorem dictGet_append_single_self (d : List (String × Int)) (k : String) (v : Int)
    (h : k ∉ dictKeys d) : dictGet (d ++ [(k, v)]) k = some v := by
  induction d with
  | nil =>
      unfold dictGet
      simp only [List.nil_append]
      rw [List.find?_cons_of_pos _ (by simp)]
      rfl
  | cons kv rest ih =>
      unfold dictGet at ih ⊢
      rw [List.cons_append]
      have hne : ¬kv.1 = k := by
        intro hc
        exact h (by unfold dictKeys; exact List.mem_map.mpr ⟨kv, List.mem_cons_self _ _, hc⟩)
      rw [List.find?_cons_of_neg _ (by simpa using hne)]
      apply ih
      intro hc
      apply h
      unfold dictKeys at hc ⊢
      rw [List.map_cons]
      exact List.mem_cons_of_mem _ hc

theorem dictGet_insert_self (d : List (String × Int)) (k : String) (v : Int) :
    dictGet (dictInsert d k v) k = some v := by
  unfold dictInsert
  by_cases ha : d.any (fun kv => kv.1 = k) = true
  · rw [if_pos ha]
    exact dictGet_map_update_self d k v ((dict_any_iff d k).mp ha)
  · rw [if_neg ha]
    exact dictGet_append_single_self d k v (fun hc => ha ((dict_any_iff d k).mpr hc))

theorem dictGet_insert_ne (d : List (String × Int)) {k x : String} (v : Int)
    (h : x ≠ k) : dictGet (dictInsert d k v) x = dictGet d x := by
  unfold dictInsert
  by_cases ha : d.any (fun kv => kv.1 = k) = true
  · rw [if_pos ha]
    exact dictGet_map_update_ne d v h
  · rw [if_neg ha]
    exact dictGet_append_single_ne d v h

theorem mem_dictKeys_foldl {α : Type} (cond : α → Bool) (key : α → String) (val : α → Int)
    (l : List α) (acc : List (String × Int)) (p : String) :
    p ∈ dictKeys (l.foldl (fun a e => if cond e then dictInsert a (key e) (val e) else a) acc)
      ↔ p ∈ dictKeys acc ∨ ∃ e ∈ l, cond e = true ∧ key e = p := by
  induction l generalizing acc with
  | nil => simp
  | cons e rest ih =>
      rw [List.foldl_cons]
      by_cases hc : cond e = true
      · rw [if_pos hc, ih]
        rw [mem_dictKeys_insert]
        constructor
        · rintro ((h | h) | ⟨e2, hm, hce, hke⟩)
          · exact Or.inl h
          · exact Or.inr ⟨e, List.mem_cons_self _ _, hc, h.symm⟩
          · exact Or.inr ⟨e2, List.mem_cons_of_mem _ hm, hce, hke⟩
        · rintro (h | ⟨e2, hm, hce, hke⟩)
          · exact Or.inl (Or.inl h)
          · rcases List.mem_cons.mp hm with he | hm2
            · exact Or.inl (Or.inr (by rw [← hke, he]))
            · exact Or.inr ⟨e2, hm2, hce, hke⟩
      · rw [if_neg hc, ih]
        constructor
        · rintro (h | ⟨e2, hm, hce, hke⟩)
          · exact Or.inl h
          · exact Or.inr ⟨e2, List.mem_cons_of_mem _ hm, hce, hke⟩
        · rintro (h | ⟨e2, hm, hce, hke⟩)
          · exact Or.inl h
          · rcases List.mem_cons.mp hm with he | hm2
            · exact absurd (he ▸ hce) hc
            · exact Or.inr ⟨e2, hm2, hce, hke⟩

theorem dictGet_foldl_frame {α : Type} (cond : α → Bool) (key : α → String) (val : α → Int)
    (l : List α) (acc : List (String × Int)) (p : String) :
    (∀ e ∈ l, cond e = true → key e ≠ p) →
    dictGet (l.foldl (fun a e => if cond e then dictInsert a (key e) (val e) else a) acc) p
      = dictGet acc p := by
  induction l generalizing acc with
  | nil =>
      intro _
      rfl
  | cons e rest ih =>
      intro h
      rw [List.foldl_cons]
      by_cases hc : cond e = true
      · rw [if_pos hc, ih _ (fun e2 hm => h e2 (List.mem_cons_of_mem _ hm))]
        exact dictGet_insert_ne acc _ (fun hp => h e (List.mem_cons_self _ _) hc hp.symm)
      · rw [if_neg hc]
        exact ih _ (fun e2 hm => h e2 (List.mem_cons_of_mem _ hm))

theorem dictGet_foldl_of_mem {α : Type} (cond : α → Bool) (key : α → String) (val : α → Int)
    (l : List α) (acc : List (String × Int)) (p : String) (v : Int) :
    (∃ e ∈ l, cond e = true ∧ key e = p ∧ val e = v) →
    (∀ e ∈ l, cond e = true → key e = p → val e = v) →
    dictGet (l.foldl (fun a e => if cond e then dictInsert a (key e) (val e) else a) acc) p
      = some v := by
  induction l generalizing acc with
  | nil =>
      rintro ⟨e, hm, _⟩ _
      exact absurd hm (List.not_mem_nil e)
  | cons e rest ih =>
      rintro ⟨e0, hm0, hc0, hk0, hv0⟩ hdet
      rw [List.foldl_cons]
      by_cases hrest : ∃ e2 ∈ rest, cond e2 = true ∧ key e2 = p ∧ val e2 = v
      · by_cases hc : cond e = true
        · rw [if_pos hc]
          exact ih _ hrest (fun e2 hm => hdet e2 (List.mem_cons_of_mem _ hm))
        · rw [if_neg hc]
          exact ih _ hrest (fun e2 hm => hdet e2 (List.mem_cons_of_mem _ hm))
      · have hframe : ∀ e2 ∈ rest, cond e2 = true → key e2 ≠ p := by
          intro e2 hm hc2 hk2
          exact hrest ⟨e2, hm, hc2, hk2, hdet e2 (List.mem_cons_of_mem _ hm) hc2 hk2⟩
        rcases List.mem_cons.mp hm0 with he | hm
        · subst he
          rw [if_pos hc0]
          rw [dictGet_foldl_frame cond key val rest _ p hframe]
          rw [hk0, hv0]
          exact dictGet_insert_self acc p v
        · exact absurd hm (fun hm2 => hrest ⟨e0, hm2, hc0, hk0, hv0⟩)

theorem dictKeys_foldl_nodup {α : Type} (cond : α → Bool) (key : α → String) (val : α → Int)
    (l : List α) (acc : List (String × Int)) :
    (dictKeys acc).Nodup →
    (dictKeys (l.foldl
      (fun a e => if cond e then dictInsert a (key e) (val e) else a) acc)).Nodup := by
  induction l generalizing acc with
  | nil => exact id
  | cons e rest ih =>
      intro h
      rw [List.foldl_cons]
      by_cases hc : cond e = true
      · rw [if_pos hc]
        exact ih _ (dictKeys_insert_nodup _ _ _ h)
      · rw [if_neg hc]
        exact ih _ h

theorem dbFilesOf_eq_foldl (db : List FileRow) :
    dbFilesOf db = db.foldl
      (fun a r => if (fun _ : FileRow => true) r then dictInsert a r.path r.mtime else a) [] :=
  rfl

theorem mem_dictKeys_dbFilesOf (db : List FileRow) (p : String) :
    p ∈ dictKeys (dbFilesOf db) ↔ ∃ r ∈ db, r.path = p := by
  rw [dbFilesOf_eq_foldl, mem_dictKeys_foldl]
  simp [dictKeys]

theorem dictKeys_dbFilesOf_nodup (db : List FileRow) : (dictKeys (dbFilesOf db)).Nodup := by
  rw [dbFilesOf_eq_foldl]
  exact dictKeys_foldl_nodup _ _ _ db [] (by simp [dictKeys])

theorem rowLookup_eq_none_iff (db : List FileRow) (p : String) :
    rowLookup db p = none ↔ ∀ r ∈ db, r.path ≠ p := by
  unfold rowLookup
  rw [List.find?_eq_none]
  constructor
  · intro h r hm hp
    exact h r hm (decide_eq_true hp)
  · intro h r hm hd
    exact h r hm (of_decide_eq_true hd)

theorem rowLookup_some {db : List FileRow} {p : String} {r : FileRow}
    (h : rowLookup db p = some r) : r ∈ db ∧ r.path = p := by
  unfold rowLookup at h
  have h1 := List.mem_of_find?_eq_some h
  have h2 := List.find?_some h
  exact ⟨h1, of_decide_eq_true h2⟩

theorem dictGet_dbFilesOf {db : List FileRow} (hnd : (db.map (fun r => r.path)).Nodup)
    {r : FileRow} (hm : r ∈ db) : dictGet (dbFilesOf db) r.path = some r.mtime := by
  rw [dbFilesOf_eq_foldl]
  apply dictGet_foldl_of_mem _ _ _ db [] r.path r.mtime ⟨r, hm, rfl, rfl, rfl⟩
  intro e hme _ hk
  have he : e = r := List.inj_on_of_nodup_map hnd hme hm hk
  rw [he]

theorem mem_dictKeys_fullDiskFiles_aux (folders : List String) (fs : List DiskFile)
    (acc : List (String × Int)) (p : String) :
    p ∈ dictKeys (folders.foldl
        (fun acc F => (fs.filter (fun e => e.folder = F)).foldl diskStep acc) acc)
      ↔ p ∈ dictKeys acc ∨
        ∃ e ∈ fs, e.folder ∈ folders ∧ extOKFull e = true ∧ filePath e = p := by
  induction folders generalizing acc with
  | nil => simp
  | cons F rest ih =>
      rw [List.foldl_cons, ih]
      have hdf : (fs.filter (fun e => e.folder = F)).foldl diskStep acc
          = (fs.filter (fun e => e.folder = F)).foldl
              (fun a e => if extOKFull e then dictInsert a (filePath e) e.mtime else a) acc :=
        rfl
      rw [hdf, mem_dictKeys_foldl]
      constructor
      · rintro ((h | ⟨e, hm, hce, hke⟩) | ⟨e, hm, hfr, hce, hke⟩)
        · exact Or.inl h
        · rcases List.mem_filter.mp hm with ⟨hms, hf⟩
          exact Or.inr ⟨e, hms,
            by rw [of_decide_eq_true hf]; exact List.mem_cons_self _ _, hce, hke⟩
        · exact Or.inr ⟨e, hm, List.mem_cons_of_mem _ hfr, hce, hke⟩
      · rintro (h | ⟨e, hm, hfm, hce, hke⟩)
        · exact Or.inl (Or.inl h)
        · rcases List.mem_cons.mp hfm with hF | hfr
          · exact Or.inl (Or.inr ⟨e, List.mem_filter.mpr ⟨hm, decide_eq_true hF⟩, hce, hke⟩)
          · exact Or.inr ⟨e, hm, hfr, hce, hke⟩

theorem mem_dictKeys_fullDiskFiles (folders : List String) (fs : List DiskFile) (p : String) :
    p ∈ dictKeys (fullDiskFiles folders fs)
      ↔ ∃ e ∈ fs, e.folder ∈ folders ∧ extOKFull e = true ∧ filePath e = p := by
  unfold fullDiskFiles
  rw [mem_dictKeys_fullDiskFiles_aux]
  simp [dictKeys]

theorem dictKeys_fullDiskFiles_aux_nodup (folders : List String) (fs : List DiskFile)
    (acc : List (String × Int)) :
    (dictKeys acc).Nodup →
    (dictKeys (folders.foldl
      (fun acc F => (fs.filter (fun e => e.folder = F)).foldl diskStep acc) acc)).Nodup := by
  induction folders generalizing acc with
  | nil => exact id
  | cons F rest ih =>
      intro h
      rw [List.foldl_cons]
      apply ih
      exact dictKeys_foldl_nodup (fun e => extOKFull e) (fun e => filePath e)
        (fun e => e.mtime) _ acc h

theorem dictKeys_fullDiskFiles_nodup (folders : List String) (fs : List DiskFile) :
    (dictKeys (fullDiskFiles folders fs)).Nodup := by
  unfold fullDiskFiles
  exact dictKeys_fullDiskFiles_aux_nodup folders fs [] (by simp [dictKeys])

theorem mem_dictKeys_scopedDiskFiles (fs : List DiskFile) (folder : String) (p : String) :
    p ∈ dictKeys (scopedDiskFiles fs folder)
      ↔ ∃ e ∈ fs, e.folder = folder ∧ extOKScoped e = true ∧ filePath e = p := by
  unfold scopedDiskFiles
  rw [mem_dictKeys_foldl]
  constructor
  · rintro (h | ⟨e, hm, hce, hke⟩)
    · exact absurd h (by simp [dictKeys])
    · rcases List.mem_filter.mp hm with ⟨hms, hf⟩
      exact ⟨e, hms, of_decide_eq_true hf, hce, hke⟩
  · rintro ⟨e, hm, hf, hce, hke⟩
    exact Or.inr ⟨e, List.mem_filter.mpr ⟨hm, decide_eq_true hf⟩, hce, hke⟩

theorem dictKeys_scopedDiskFiles_nodup (fs : List DiskFile) (folder : String) :
    (dictKeys (scopedDiskFiles fs folder)).Nodup := by
  unfold scopedDiskFiles
  exact dictKeys_foldl_nodup _ _ _ _ [] (by simp [dictKeys])

theorem rowLookup_append_left {db : List FileRow} {p : String} {r : FileRow}
    (l : List FileRow) (h : rowLookup db p = some r) : rowLookup (db ++ l) p = some r := by
  induction db with
  | nil => exact absurd h (by simp [rowLookup])
  | cons q rest ih =>
      unfold rowLookup at h ⊢
      rw [List.cons_append]
      by_cases hq : q.path = p
      · rw [List.find?_cons_of_pos _ (by simpa using hq)] at h
        rw [List.find?_cons_of_pos _ (by simpa using hq)]
        exact h
      · rw [List.find?_cons_of_neg _ (by simpa using hq)] at h
        rw [List.find?_cons_of_neg _ (by simpa using hq)]
        exact ih h

theorem rowLookup_append_right {db : List FileRow} {p : String}
    (l : List FileRow) (h : rowLookup db p = none) :
    rowLookup (db ++ l) p = rowLookup l p := by
  induction db with
  | nil => rfl
  | cons q rest ih =>
      unfold rowLookup at h ⊢
      rw [List.cons_append]
      by_cases hq : q.path = p
      · rw [List.find?_cons_of_pos _ (by simpa using hq)] at h
        exact absurd h (by simp)
      · rw [List.find?_cons_of_neg _ (by simpa using hq)] at h
        rw [List.find?_cons_of_neg _ (by simpa using hq)]
        exact ih h

theorem rowLookup_filter_of_pred (db : List FileRow) (f : FileRow → Bool) (p : String)
    (h : ∀ r ∈ db, r.path = p → f r = true) :
    rowLookup (db.filter f) p = rowLookup db p := by
  induction db with
  | nil => rfl
  | cons q rest ih =>
      rw [List.filter_cons]
      by_cases hq : q.path = p
      · rw [if_pos (h q (List.mem_cons_self _ _) hq)]
        unfold rowLookup
        rw [List.find?_cons_of_pos _ (by simpa using hq),
          List.find?_cons_of_pos _ (by simpa using hq)]
      · by_cases hf : f q = true
        · rw [if_pos hf]
          unfold rowLookup
          rw [List.find?_cons_of_neg _ (by simpa using hq),
            List.find?_cons_of_neg _ (by simpa using hq)]
          exact ih (fun r hm hp => h r (List.mem_cons_of_mem _ hm) hp)
        · rw [if_neg hf]
          unfold rowLookup
          rw [List.find?_cons_of_neg _ (by simpa using hq)]
          exact ih (fun r hm hp => h r (List.mem_cons_of_mem _ hm) hp)

theorem rowLookup_filter_of_pred_neg (db : List FileRow) (f : FileRow → Bool) (p : String)
    (h : ∀ r ∈ db, r.path = p → f r = false) :
    rowLookup (db.filter f) p = none := by
  rw [rowLookup_eq_none_iff]
  intro r hm hp
  rcases List.mem_filter.mp hm with ⟨hmm, hf⟩
  rw [h r hmm hp] at hf
  exact Bool.false_ne_true hf

theorem upsertRow_eq {md5f : String → String} (hinj : Function.Injective md5f)
    {db : List FileRow} (hId : ∀ q ∈ db, q.id = md5f q.path)
    {r : FileRow} (hr : r.id = md5f r.path) :
    upsertRow db r = (db.filter (fun q => decide (q.path ≠ r.path))) ++ [r] := by
  unfold upsertRow
  congr 1
  apply List.filter_congr
  intro q hm
  rw [decide_eq_decide]
  constructor
  · intro hn hp
    exact hn (Or.inr hp)
  · intro hn hc
    rcases hc with hid | hp
    · exact hn (hinj (by rw [← hId q hm, ← hr, hid]))
    · exact hn hp

theorem hId_upsertRow {md5f : String → String} {db : List FileRow}
    (hId : ∀ q ∈ db, q.id = md5f q.path) {r : FileRow} (hr : r.id = md5f r.path) :
    ∀ q ∈ upsertRow db r, q.id = md5f q.path := by
  intro q hm
  unfold upsertRow at hm
  rcases List.mem_append.mp hm with h | h
  · exact hId q (List.mem_of_mem_filter h)
  · rw [List.mem_singleton.mp h]
    exact hr

theorem mem_paths_upsertRow {md5f : String → String} (hinj : Function.Injective md5f)
    {db : List FileRow} (hId : ∀ q ∈ db, q.id = md5f q.path)
    {r : FileRow} (hr : r.id = md5f r.path) (p : String) :
    (∃ q ∈ upsertRow db r, q.path = p) ↔ (∃ q ∈ db, q.path = p) ∨ p = r.path := by
  rw [upsertRow_eq hinj hId hr]
  constructor
  · rintro ⟨q, hm, hp⟩
    rcases List.mem_append.mp hm with h | h
    · exact Or.inl ⟨q, List.mem_of_mem_filter h, hp⟩
    · rw [List.mem_singleton.mp h] at hp
      exact Or.inr hp.symm
  · rintro (⟨q, hm, hp⟩ | hp)
    · by_cases hq : q.path = r.path
      · refine ⟨r, List.mem_append_right _ (List.mem_singleton_self _), ?_⟩
        rw [← hq]
        exact hp
      · exact ⟨q, List.mem_append_left _ (List.mem_filter.mpr ⟨hm, decide_eq_true hq⟩), hp⟩
    · exact ⟨r, List.mem_append_right _ (List.mem_singleton_self _), hp.symm⟩

theorem paths_upsertRow_nodup {md5f : String → String} (hinj : Function.Injective md5f)
    {db : List FileRow} (hId : ∀ q ∈ db, q.id = md5f q.path)
    (hnd : (db.map (fun q => q.path)).Nodup)
    {r : FileRow} (hr : r.id = md5f r.path) :
    ((upsertRow db r).map (fun q => q.path)).Nodup := by
  rw [upsertRow_eq hinj hId hr, List.map_append, List.nodup_append]
  refine ⟨?_, by simp, ?_⟩
  · have hsub : List.Sublist (db.filter (fun q => decide (q.path ≠ r.path))) db :=
      List.filter_sublist db
    exact List.Nodup.sublist (hsub.map (fun q => q.path)) hnd
  · intro x hx hx2
    rcases List.mem_map.mp hx with ⟨q, hm, he⟩
    rcases List.mem_filter.mp hm with ⟨_, hq⟩
    have hx3 : x = r.path := by simpa using hx2
    apply of_decide_eq_true hq
    rw [he]
    exact hx3

theorem rowLookup_upsertRow_self {md5f : String → String} (hinj : Function.Injective md5f)
    {db : List FileRow} (hId : ∀ q ∈ db, q.id = md5f q.path)
    {r : FileRow} (hr : r.id = md5f r.path) :
    rowLookup (upsertRow db r) r.path = some r := by
  rw [upsertRow_eq hinj hId hr]
  have hnone : rowLookup (db.filter (fun q => decide (q.path ≠ r.path))) r.path = none := by
    apply rowLookup_filter_of_pred_neg
    intro q _ hp
    simp [hp]
  rw [rowLookup_append_right _ hnone]
  unfold rowLookup
  rw [List.find?_cons_of_pos _ (by simp)]

theorem rowLookup_upsertRow_other {md5f : String → String} (hinj : Function.Injective md5f)
    {db : List FileRow} (hId : ∀ q ∈ db, q.id = md5f q.path)
    {r : FileRow} (hr : r.id = md5f r.path) {p : String} (hp : p ≠ r.path) :
    rowLookup (upsertRow db r) p = rowLookup db p := by
  rw [upsertRow_eq hinj hId hr]
  have hfil : rowLookup (db.filter (fun q => decide (q.path ≠ r.path))) p
      = rowLookup db p := by
    apply rowLookup_filter_of_pred
    intro q _ hq
    exact decide_eq_true (fun hc => hp (hq ▸ hc))
  rcases ho : rowLookup db p with _ | q
  · rw [ho] at hfil
    rw [rowLookup_append_right _ hfil]
    unfold rowLookup
    rw [List.find?_cons_of_neg _ (by simpa using fun hc => hp hc.symm)]
    rfl
  · rw [ho] at hfil
    rw [rowLookup_append_left _ hfil]

theorem applyUpserts_facts {md5f : String → String} (hinj : Function.Injective md5f)
    (rows : List FileRow) :
    ∀ (db : List FileRow),
      (∀ q ∈ db, q.id = md5f q.path) →
      (db.map (fun q => q.path)).Nodup →
      (∀ r ∈ rows, r.id = md5f r.path) →
      (rows.map (fun r => r.path)).Nodup →
      (∀ q ∈ applyUpserts db rows, q.id = md5f q.path) ∧
      ((applyUpserts db rows).map (fun q => q.path)).Nodup ∧
      (∀ p, (∃ q ∈ applyUpserts db rows, q.path = p) ↔
        (∃ q ∈ db, q.path = p) ∨ ∃ r ∈ rows, r.path = p) ∧
      (∀ p, (∀ r ∈ rows, r.path ≠ p) →
        rowLookup (applyUpserts db rows) p = rowLookup db p) ∧
      (∀ r0 ∈ rows, rowLookup (applyUpserts db rows) r0.path = some r0) := by
  induction rows with
  | nil =>
      intro db hId hnd _ _
      refine ⟨hId, hnd, ?_, ?_, ?_⟩
      · intro p
        simp [applyUpserts]
      · intro p _
        rfl
      · intro r0 hr0
        exact absurd hr0 (List.not_mem_nil r0)
  | cons r rest ih =>
      intro db hId hnd hrows hrnd
      have hr : r.id = md5f r.path := hrows r (List.mem_cons_self _ _)
      have hrest : ∀ q ∈ rest, q.id = md5f q.path :=
        fun q hm => hrows q (List.mem_cons_of_mem _ hm)
      have hrestnd : (rest.map (fun q => q.path)).Nodup := (List.nodup_cons.mp hrnd).2
      have hrp : r.path ∉ rest.map (fun q => q.path) := (List.nodup_cons.mp hrnd).1
      have hau : applyUpserts db (r :: rest) = applyUpserts (upsertRow db r) rest := rfl
      have H := ih (upsertRow db r) (hId_upsertRow hId hr)
        (paths_upsertRow_nodup hinj hId hnd hr) hrest hrestnd
      rw [hau]
      refine ⟨H.1, H.2.1, ?_, ?_, ?_⟩
      · intro p
        rw [H.2.2.1 p, mem_paths_upsertRow hinj hId hr p]
        constructor
        · rintro ((h | h) | ⟨q, hm, hp⟩)
          · exact Or.inl h
          · exact Or.inr ⟨r, List.mem_cons_self _ _, h.symm⟩
          · exact Or.inr ⟨q, List.mem_cons_of_mem _ hm, hp⟩
        · rintro (h | ⟨q, hm, hp⟩)
          · exact Or.inl (Or.inl h)
          · rcases List.mem_cons.mp hm with he | hm2
            · exact Or.inl (Or.inr (by rw [← hp, he]))
            · exact Or.inr ⟨q, hm2, hp⟩
      · intro p hnone
        rw [H.2.2.2.1 p (fun q hm => hnone q (List.mem_cons_of_mem _ hm))]
        exact rowLookup_upsertRow_other hinj hId hr
          (fun hc => hnone r (List.mem_cons_self _ _) hc.symm)
      · intro r0 hr0
        rcases List.mem_cons.mp hr0 with he | hm
        · rw [he]
          rw [H.2.2.2.1 r.path (fun q hm hc => hrp (List.mem_map.mpr ⟨q, hm, hc⟩))]
          exact rowLookup_upsertRow_self hinj hId hr
        · exact H.2.2.2.2 r0 hm

theorem rowLookup_applyDeletes_notmem {db : List FileRow} {paths : List String} {p : String}
    (h : p ∉ paths) : rowLookup (applyDeletes db paths) p = rowLookup db p := by
  unfold applyDeletes
  apply rowLookup_filter_of_pred
  intro r _ hp
  exact decide_eq_true (show r.path ∉ paths from fun hc => h (hp ▸ hc))

theorem rowLookup_applyDeletes_mem {db : List FileRow} {paths : List String} {p : String}
    (h : p ∈ paths) : rowLookup (applyDeletes db paths) p = none := by
  unfold applyDeletes
  apply rowLookup_filter_of_pred_neg
  intro r _ hp
  exact decide_eq_false (not_not_intro (hp.symm ▸ h))

theorem mem_paths_applyDeletes (db : List FileRow) (paths : List String) (p : String) :
    (∃ q ∈ applyDeletes db paths, q.path = p) ↔ (∃ q ∈ db, q.path = p) ∧ p ∉ paths := by
  unfold applyDeletes
  constructor
  · rintro ⟨q, hm, hp⟩
    rcases List.mem_filter.mp hm with ⟨hmm, hf⟩
    exact ⟨⟨q, hmm, hp⟩, fun hc => (of_decide_eq_true hf) (hp.symm ▸ hc)⟩
  · rintro ⟨⟨q, hm, hp⟩, hnp⟩
    exact ⟨q, List.mem_filter.mpr
      ⟨hm, decide_eq_true (show q.path ∉ paths from fun hc => hnp (hp ▸ hc))⟩, hp⟩

theorem paths_applyDeletes_nodup {db : List FileRow}
    (hnd : (db.map (fun q => q.path)).Nodup) (paths : List String) :
    ((applyDeletes db paths).map (fun q => q.path)).Nodup := by
  unfold applyDeletes
  exact List.Nodup.sublist ((List.filter_sublist db).map (fun q => q.path)) hnd

theorem hId_applyDeletes {md5f : String → String} {db : List FileRow}
    (hId : ∀ q ∈ db, q.id = md5f q.path) (paths : List String) :
    ∀ q ∈ applyDeletes db paths, q.id = md5f q.path := by
  intro q hm
  unfold applyDeletes at hm
  exact hId q (List.mem_of_mem_filter hm)

theorem mem_toAdd (disk dbf : List (String × Int)) (p : String) :
    p ∈ toAdd disk dbf ↔ p ∈ dictKeys disk ∧ p ∉ dictKeys dbf := by
  unfold toAdd
  rw [List.mem_filter]
  simp

theorem mem_toDelete (disk dbf : List (String × Int)) (p : String) :
    p ∈ toDelete disk dbf ↔ p ∈ dictKeys dbf ∧ p ∉ dictKeys disk := by
  unfold toDelete
  rw [List.mem_filter]
  simp

theorem mem_toUpdate (disk dbf : List (String × Int)) (p : String) :
    p ∈ toUpdate disk dbf ↔ p ∈ dictKeys disk ∧ p ∈ dictKeys dbf ∧
      dictGetD disk p 0 > dictGetD dbf p 0 := by
  unfold toUpdate
  rw [List.mem_filter]
  simp [and_assoc]

theorem upsertRowsOf_paths (md5f : String → String) (probe : String → Metadata)
    (disk dbf : List (String × Int)) :
    (upsertRowsOf md5f probe disk dbf).map (fun r => r.path)
      = toAdd disk dbf ++ toUpdate disk dbf := by
  unfold upsertRowsOf
  rw [List.map_map]
  have hc : ((fun r : FileRow => r.path) ∘ fun p => mkRow md5f probe p (dictGetD disk p 0))
      = fun p => p := rfl
  rw [hc]
  exact List.map_id' _

theorem hId_upsertRowsOf (md5f : String → String) (probe : String → Metadata)
    (disk dbf : List (String × Int)) :
    ∀ r ∈ upsertRowsOf md5f probe disk dbf, r.id = md5f r.path := by
  intro r hm
  unfold upsertRowsOf at hm
  rcases List.mem_map.mp hm with ⟨p, _, he⟩
  rw [← he]
  rfl

theorem processed_nodup (disk dbf : List (String × Int)) (hnd : (dictKeys disk).Nodup) :
    (toAdd disk dbf ++ toUpdate disk dbf).Nodup := by
  rw [List.nodup_append]
  refine ⟨List.Nodup.filter _ hnd, List.Nodup.filter _ hnd, ?_⟩
  intro p hpa hpu
  rw [mem_toAdd] at hpa
  rw [mem_toUpdate] at hpu
  exact hpa.2 hpu.2.1

theorem mem_rows_upsertRowsOf (md5f : String → String) (probe : String → Metadata)
    (disk dbf : List (String × Int)) (p : String) :
    (∃ r ∈ upsertRowsOf md5f probe disk dbf, r.path = p)
      ↔ p ∈ toAdd disk dbf ++ toUpdate disk dbf := by
  constructor
  · rintro ⟨r, hm, hp⟩
    have hmp : r.path ∈ (upsertRowsOf md5f probe disk dbf).map (fun r => r.path) :=
      List.mem_map.mpr ⟨r, hm, rfl⟩
    rw [upsertRowsOf_paths] at hmp
    exact hp ▸ hmp
  · intro hp
    refine ⟨mkRow md5f probe p (dictGetD disk p 0), ?_, rfl⟩
    unfold upsertRowsOf
    exact List.mem_map.mpr ⟨p, hp, rfl⟩

theorem rowLookup_full_sync_database {md5f : String → String}
    (hinj : Function.Injective md5f) (probe : String → Metadata)
    (folders : List String) (fs : List DiskFile)
    {db : List FileRow} (hId : ∀ q ∈ db, q.id = md5f q.path)
    (hnd : (db.map (fun q => q.path)).Nodup) (p : String) :
    rowLookup (full_sync_database md5f probe folders fs db) p
      = (if p ∈ toDelete (fullDiskFiles folders fs) (dbFilesOf db) then none
         else if p ∈ toAdd (fullDiskFiles folders fs) (dbFilesOf db)
             ++ toUpdate (fullDiskFiles folders fs) (dbFilesOf db) then
           some (mkRow md5f probe p (dictGetD (fullDiskFiles folders fs) p 0))
         else rowLookup db p) := by
  have hrowsnd : ((upsertRowsOf md5f probe (fullDiskFiles folders fs) (dbFilesOf db)).map
      (fun r => r.path)).Nodup := by
    rw [upsertRowsOf_paths]
    exact processed_nodup _ _ (dictKeys_fullDiskFiles_nodup folders fs)
  have H := applyUpserts_facts hinj
    (upsertRowsOf md5f probe (fullDiskFiles folders fs) (dbFilesOf db)) db hId hnd
    (hId_upsertRowsOf md5f probe _ _) hrowsnd
  unfold full_sync_database
  by_cases hdel : p ∈ toDelete (fullDiskFiles folders fs) (dbFilesOf db)
  · rw [if_pos hdel]
    exact rowLookup_applyDeletes_mem hdel
  · rw [if_neg hdel]
    rw [rowLookup_applyDeletes_notmem hdel]
    by_cases hproc : p ∈ toAdd (fullDiskFiles folders fs) (dbFilesOf db)
        ++ toUpdate (fullDiskFiles folders fs) (dbFilesOf db)
    · rw [if_pos hproc]
      have hmem : mkRow md5f probe p (dictGetD (fullDiskFiles folders fs) p 0)
          ∈ upsertRowsOf md5f probe (fullDiskFiles folders fs) (dbFilesOf db) := by
        unfold upsertRowsOf
        exact List.mem_map.mpr ⟨p, hproc, rfl⟩
      exact H.2.2.2.2 _ hmem
    · rw [if_neg hproc]
      apply H.2.2.2.1
      intro r hm hp
      apply hproc
      rw [← hp]
      exact (mem_rows_upsertRowsOf md5f probe _ _ r.path).mp ⟨r, hm, rfl⟩

theorem hId_full_sync {md5f : String → String} (hinj : Function.Injective md5f)
    (probe : String → Metadata) (folders : List String) (fs : List DiskFile)
    {db : List FileRow} (hId : ∀ q ∈ db, q.id = md5f q.path)
    (hnd : (db.map (fun q => q.path)).Nodup) :
    (∀ q ∈ full_sync_database md5f probe folders fs db, q.id = md5f q.path) ∧
      ((full_sync_database md5f probe folders fs db).map (fun q => q.path)).Nodup := by
  have hrowsnd : ((upsertRowsOf md5f probe (fullDiskFiles folders fs) (dbFilesOf db)).map
      (fun r => r.path)).Nodup := by
    rw [upsertRowsOf_paths]
    exact processed_nodup _ _ (dictKeys_fullDiskFiles_nodup folders fs)
  have H := applyUpserts_facts hinj
    (upsertRowsOf md5f probe (fullDiskFiles folders fs) (dbFilesOf db)) db hId hnd
    (hId_upsertRowsOf md5f probe _ _) hrowsnd
  unfold full_sync_database
  exact ⟨hId_applyDeletes H.1 _, paths_applyDeletes_nodup H.2.1 _⟩

/-- C3: after one full reconciliation pass, the stored paths are exactly the
live disk paths directly inside resolved folders whose extension is not a
reserved one (`.json`, `.sqlite`). -/
theorem full_sync_delta_correctness {md5f : String → String}
    (hinj : Function.Injective md5f) (probe : String → Metadata)
    (folders : List String) (fs : List DiskFile) (db : List FileRow)
    (hId : ∀ q ∈ db, q.id = md5f q.path)
    (hnd : (db.map (fun q => q.path)).Nodup) (p : String) :
    (∃ q ∈ full_sync_database md5f probe folders fs db, q.path = p)
      ↔ ∃ e ∈ fs, e.folder ∈ folders ∧ extOKFull e = true ∧ filePath e = p := by
  rw [← mem_dictKeys_fullDiskFiles folders fs p]
  have hrowsnd : ((upsertRowsOf md5f probe (fullDiskFiles folders fs) (dbFilesOf db)).map
      (fun r => r.path)).Nodup := by
    rw [upsertRowsOf_paths]
    exact processed_nodup _ _ (dictKeys_fullDiskFiles_nodup folders fs)
  have H := applyUpserts_facts hinj
    (upsertRowsOf md5f probe (fullDiskFiles folders fs) (dbFilesOf db)) db hId hnd
    (hId_upsertRowsOf md5f probe _ _) hrowsnd
  unfold full_sync_database
  rw [mem_paths_applyDeletes, H.2.2.1 p, mem_rows_upsertRowsOf, mem_toDelete]
  constructor
  · rintro ⟨hin, hnotdel⟩
    rcases hin with hdb | hproc
    · have hD : p ∈ dictKeys (dbFilesOf db) := (mem_dictKeys_dbFilesOf db p).mpr hdb
      by_contra hnL
      exact hnotdel ⟨hD, hnL⟩
    · rcases List.mem_append.mp hproc with h | h
      · exact ((mem_toAdd _ _ p).mp h).1
      · exact ((mem_toUpdate _ _ p).mp h).1
  · intro hL
    by_cases hD : p ∈ dictKeys (dbFilesOf db)
    · refine ⟨Or.inl ((mem_dictKeys_dbFilesOf db p).mp hD), ?_⟩
      rintro ⟨_, hnL⟩
      exact hnL hL
    · refine ⟨Or.inr (List.mem_append_left _ ((mem_toAdd _ _ p).mpr ⟨hL, hD⟩)), ?_⟩
      rintro ⟨hD2, _⟩
      exact hD hD2

theorem full_sync_delta_correctness_witness :
    ((([] : List FileRow).map (fun q => q.path)).Nodup) ∧
    ((∃ q ∈ full_sync_database (fun s => s) (fun _ => (⟨"image", "", "", 0⟩ : Metadata))
        ["/o"] [⟨"/o", "a.png", 5⟩, ⟨"/o", "n.json", 5⟩] [], q.path = "/o/a.png")
      ↔ ∃ e ∈ [(⟨"/o", "a.png", 5⟩ : DiskFile), ⟨"/o", "n.json", 5⟩],
          e.folder ∈ ["/o"] ∧ extOKFull e = true ∧ filePath e = "/o/a.png") :=
  ⟨by decide,
    full_sync_delta_correctness (fun _ _ h => h) (fun _ => (⟨"image", "", "", 0⟩ : Metadata))
      ["/o"] [⟨"/o", "a.png", 5⟩, ⟨"/o", "n.json", 5⟩] []
      (fun q hq => absurd hq (List.not_mem_nil q)) (by decide) "/o/a.png"⟩

/-- C1 counterexample: a stored favorite whose path lands in the update set
(live mtime 5 exceeds stored mtime 3) comes out of the full pass with
`is_favorite` reset to 0, refuting the claim that updates preserve the
favorite flag. -/
theorem favorite_preservation_counterexample :
    "/o/a.png" ∈ toUpdate
        (fullDiskFiles ["/o"] [⟨"/o", "a.png", 5⟩])
        (dbFilesOf [⟨"/o/a.png", "/o/a.png", 3, "a.png", "image", "", "", 0, 1⟩]) ∧
    (rowLookup (full_sync_database (fun s => s)
          (fun _ => (⟨"image", "", "", 0⟩ : Metadata)) ["/o"] [⟨"/o", "a.png", 5⟩]
          [⟨"/o/a.png", "/o/a.png", 3, "a.png", "image", "", "", 0, 1⟩])
        "/o/a.png").map (fun r => r.is_favorite) = some 0 :=
  ⟨by decide, by decide⟩

/-- C1 (amended): the eight-column `INSERT OR REPLACE` resets `is_favorite`
to its schema default 0 on every row the pass writes — fresh inserts and
updates alike — while a path the pass does not write (in none of the insert,
update or delete sets) keeps its stored row, favorite flag included. -/
theorem favorite_reset_on_upsert {md5f : String → String} (hinj : Function.Injective md5f)
    (probe : String → Metadata) (folders : List String) (fs : List DiskFile)
    {db : List FileRow} (hId : ∀ q ∈ db, q.id = md5f q.path)
    (hnd : (db.map (fun q => q.path)).Nodup) (p : String) :
    (p ∈ toAdd (fullDiskFiles folders fs) (dbFilesOf db)
        ++ toUpdate (fullDiskFiles folders fs) (dbFilesOf db) →
      (rowLookup (full_sync_database md5f probe folders fs db) p).map
          (fun r => r.is_favorite) = some 0) ∧
    (p ∉ toAdd (fullDiskFiles folders fs) (dbFilesOf db)
        ++ toUpdate (fullDiskFiles folders fs) (dbFilesOf db) →
      p ∉ toDelete (fullDiskFiles folders fs) (dbFilesOf db) →
      rowLookup (full_sync_database md5f probe folders fs db) p = rowLookup db p) := by
  constructor
  · intro hproc
    have hnotdel : p ∉ toDelete (fullDiskFiles folders fs) (dbFilesOf db) := by
      intro hdel
      rcases (mem_toDelete _ _ p).mp hdel with ⟨hD, hnL⟩
      rcases List.mem_append.mp hproc with h | h
      · exact hnL ((mem_toAdd _ _ p).mp h).1
      · exact hnL ((mem_toUpdate _ _ p).mp h).1
    rw [rowLookup_full_sync_database hinj probe folders fs hId hnd p,
      if_neg hnotdel, if_pos hproc]
    rfl
  · intro hproc hnotdel
    rw [rowLookup_full_sync_database hinj probe folders fs hId hnd p,
      if_neg hnotdel, if_neg hproc]

theorem favorite_reset_on_upsert_witness :
    ("/o/a.png" ∈ toAdd (fullDiskFiles ["/o"] [⟨"/o", "a.png", 5⟩])
          (dbFilesOf [⟨"/o/a.png", "/o/a.png", 3, "a.png", "image", "", "", 0, 1⟩])
        ++ toUpdate (fullDiskFiles ["/o"] [⟨"/o", "a.png", 5⟩])
          (dbFilesOf [⟨"/o/a.png", "/o/a.png", 3, "a.png", "image", "", "", 0, 1⟩])) ∧
    (rowLookup (full_sync_database (fun s => s) (fun _ => (⟨"image", "", "", 0⟩ : Metadata))
        ["/o"] [⟨"/o", "a.png", 5⟩]
        [⟨"/o/a.png", "/o/a.png", 3, "a.png", "image", "", "", 0, 1⟩]) "/o/a.png").map
      (fun r => r.is_favorite) = some 0 :=
  ⟨by decide,
    (favorite_reset_on_upsert (fun _ _ h => h) (fun _ => (⟨"image", "", "", 0⟩ : Metadata))
      ["/o"] [⟨"/o", "a.png", 5⟩] (by decide) (by decide) "/o/a.png").1 (by decide)⟩

/-- C4: the full pass is idempotent — run again against an unchanged disk it
computes empty insert, update and delete sets and returns the store
unchanged. -/
theorem full_sync_idempotent {md5f : String → String} (hinj : Function.Injective md5f)
    (probe : String → Metadata) (folders : List String) (fs : List DiskFile)
    (db : List FileRow) (hId : ∀ q ∈ db, q.id = md5f q.path)
    (hnd : (db.map (fun q => q.path)).Nodup) :
    toAdd (fullDiskFiles folders fs)
        (dbFilesOf (full_sync_database md5f probe folders fs db)) = [] ∧
    toUpdate (fullDiskFiles folders fs)
        (dbFilesOf (full_sync_database md5f probe folders fs db)) = [] ∧
    toDelete (fullDiskFiles folders fs)
        (dbFilesOf (full_sync_database md5f probe folders fs db)) = [] ∧
    full_sync_database md5f probe folders fs (full_sync_database md5f probe folders fs db)
      = full_sync_database md5f probe folders fs db := by
  set db1 := full_sync_database md5f probe folders fs db with hdb1
  have H1 := hId_full_sync hinj probe folders fs hId hnd
  have hkeysD1 : ∀ p, p ∈ dictKeys (dbFilesOf db1)
      ↔ p ∈ dictKeys (fullDiskFiles folders fs) := by
    intro p
    rw [mem_dictKeys_dbFilesOf, mem_dictKeys_fullDiskFiles]
    exact full_sync_delta_correctness hinj probe folders fs db hId hnd p
  have hval : ∀ p ∈ dictKeys (fullDiskFiles folders fs),
      ¬(dictGetD (fullDiskFiles folders fs) p 0 > dictGetD (dbFilesOf db1) p 0) := by
    intro p hL
    have hnotdel : p ∉ toDelete (fullDiskFiles folders fs) (dbFilesOf db) := by
      intro hdel
      exact ((mem_toDelete _ _ p).mp hdel).2 hL
    have hwork := rowLookup_full_sync_database hinj probe folders fs hId hnd p
    rw [if_neg hnotdel] at hwork
    by_cases hproc : p ∈ toAdd (fullDiskFiles folders fs) (dbFilesOf db)
        ++ toUpdate (fullDiskFiles folders fs) (dbFilesOf db)
    · rw [if_pos hproc] at hwork
      have hr1 := rowLookup_some hwork
      have hv1 := dictGet_dbFilesOf H1.2 hr1.1
      have hv1x : dictGet (dbFilesOf db1) p
          = some (dictGetD (fullDiskFiles folders fs) p 0) := hv1
      have heq : dictGetD (dbFilesOf db1) p 0
          = dictGetD (fullDiskFiles folders fs) p 0 := by
        unfold dictGetD
        rw [hv1x]
        rfl
      rw [heq]
      exact lt_irrefl _
    · rw [if_neg hproc] at hwork
      have hD : p ∈ dictKeys (dbFilesOf db) := by
        by_contra hnD
        exact hproc (List.mem_append_left _ ((mem_toAdd _ _ p).mpr ⟨hL, hnD⟩))
      have hnotupd : ¬(dictGetD (fullDiskFiles folders fs) p 0
          > dictGetD (dbFilesOf db) p 0) := by
        intro hgt
        exact hproc (List.mem_append_right _ ((mem_toUpdate _ _ p).mpr ⟨hL, hD, hgt⟩))
      rcases ho : rowLookup db p with _ | r
      · rcases (mem_dictKeys_dbFilesOf db p).mp hD with ⟨q, hq, hqp⟩
        exact absurd hqp ((rowLookup_eq_none_iff db p).mp ho q hq)
      · have hr := rowLookup_some ho
        have hvD : dictGet (dbFilesOf db) p = some r.mtime := by
          have hx := dictGet_dbFilesOf hnd hr.1
          rw [hr.2] at hx
          exact hx
        rw [ho] at hwork
        have hr1 := rowLookup_some hwork
        have hvD1 : dictGet (dbFilesOf db1) p = some r.mtime := by
          have hx := dictGet_dbFilesOf H1.2 hr1.1
          rw [hr1.2] at hx
          exact hx
        have heq : dictGetD (dbFilesOf db1) p 0 = r.mtime := by
          unfold dictGetD
          rw [hvD1]
          rfl
        have heqD : dictGetD (dbFilesOf db) p 0 = r.mtime := by
          unfold dictGetD
          rw [hvD]
          rfl
        rw [heq]
        rw [heqD] at hnotupd
        exact hnotupd
  have hAdd : toAdd (fullDiskFiles folders fs) (dbFilesOf db1) = [] := by
    unfold toAdd
    rw [List.filter_eq_nil_iff]
    intro p hp
    simp only [decide_eq_true_eq]
    exact not_not_intro ((hkeysD1 p).mpr hp)
  have hDel : toDelete (fullDiskFiles folders fs) (dbFilesOf db1) = [] := by
    unfold toDelete
    rw [List.filter_eq_nil_iff]
    intro p hp
    simp only [decide_eq_true_eq]
    exact not_not_intro ((hkeysD1 p).mp hp)
  have hUpd : toUpdate (fullDiskFiles folders fs) (dbFilesOf db1) = [] := by
    unfold toUpdate
    rw [List.filter_eq_nil_iff]
    intro p hp
    intro hc
    rw [Bool.and_eq_true] at hc
    exact hval p hp (of_decide_eq_true hc.2)
  refine ⟨hAdd, hUpd, hDel, ?_⟩
  have hrows : upsertRowsOf md5f probe (fullDiskFiles folders fs) (dbFilesOf db1) = [] := by
    unfold upsertRowsOf
    rw [hAdd, hUpd]
    rfl
  unfold full_sync_database
  rw [hrows, hDel]
  show applyDeletes (applyUpserts db1 []) [] = db1
  unfold applyUpserts
  rw [List.foldl_nil]
  unfold applyDeletes
  rw [List.filter_eq_self]
  intro q _
  exact decide_eq_true (List.not_mem_nil q.path)

theorem full_sync_idempotent_witness :
    ((([⟨"/o/a.png", "/o/a.png", 3, "a.png", "image", "", "", 0, 1⟩] : List FileRow).map
        (fun q => q.path)).Nodup) ∧
    full_sync_database (fun s => s) (fun _ => (⟨"image", "", "", 0⟩ : Metadata)) ["/o"]
        [⟨"/o", "a.png", 5⟩]
        (full_sync_database (fun s => s) (fun _ => (⟨"image", "", "", 0⟩ : Metadata)) ["/o"]
          [⟨"/o", "a.png", 5⟩] [⟨"/o/a.png", "/o/a.png", 3, "a.png", "image", "", "", 0, 1⟩])
      = full_sync_database (fun s => s) (fun _ => (⟨"image", "", "", 0⟩ : Metadata)) ["/o"]
          [⟨"/o", "a.png", 5⟩] [⟨"/o/a.png", "/o/a.png", 3, "a.png", "image", "", "", 0, 1⟩] :=
  ⟨by decide,
    (full_sync_idempotent (fun _ _ h => h) (fun _ => (⟨"image", "", "", 0⟩ : Metadata)) ["/o"]
      [⟨"/o", "a.png", 5⟩] [⟨"/o/a.png", "/o/a.png", 3, "a.png", "image", "", "", 0, 1⟩]
      (by decide) (by decide)).2.2.2⟩

theorem runOps_append (st : List FileRow) (a b : List DbOp) :
    runOps st (a ++ b) = runOps (runOps st a) b :=
  List.foldl_append _ _ _ _

theorem runOps_upserts (st : List FileRow) (rows : List FileRow) :
    runOps st (rows.map DbOp.upsert) = applyUpserts st rows := by
  induction rows generalizing st with
  | nil => rfl
  | cons r rest ih =>
      rw [List.map_cons]
      exact ih (upsertRow st r)

theorem runOps_dels (st : List FileRow) (paths : List String) :
    runOps st (paths.map DbOp.del) = applyDeletes st paths := by
  induction paths generalizing st with
  | nil =>
      symm
      show applyDeletes st [] = st
      unfold applyDeletes
      rw [List.filter_eq_self]
      intro q _
      exact decide_eq_true (List.not_mem_nil q.path)
  | cons p rest ih =>
      rw [List.map_cons]
      have hcomb : applyDeletes (st.filter (fun q => decide (q.path ≠ p))) rest
          = applyDeletes st (p :: rest) := by
        unfold applyDeletes
        rw [List.filter_filter]
        apply List.filter_congr
        intro q _
        by_cases h1 : q.path = p
        · simp [List.mem_cons, h1]
        · by_cases h2 : q.path ∈ rest
          · simp [List.mem_cons, h1, h2]
          · simp [List.mem_cons, h1, h2]
      calc runOps st ((DbOp.del p) :: rest.map DbOp.del)
          = runOps (st.filter (fun q => decide (q.path ≠ p))) (rest.map DbOp.del) := rfl
        _ = applyDeletes (st.filter (fun q => decide (q.path ≠ p))) rest := ih _
        _ = applyDeletes st (p :: rest) := hcomb

/-- C9: one-transaction semantics of the full pass — stopping short of the
commit after any prefix of the pass's statements leaves the committed store
exactly in its pre-pass state, and a completed pass publishes (to readers
and to the transaction alike) precisely the pure reconciliation result of
the state it read, so no reader ever observes a strict subset of the pass's
changes. -/
theorem full_sync_single_transaction (md5f : String → String) (probe : String → Metadata)
    (folders : List String) (fs : List DiskFile) (c : Conn) (k : Nat) :
    (passAborted md5f probe folders fs c k).committed = c.committed ∧
    (passCommitted md5f probe folders fs c).committed
      = full_sync_database md5f probe folders fs c.pending ∧
    (passCommitted md5f probe folders fs c).pending
      = full_sync_database md5f probe folders fs c.pending := by
  refine ⟨rfl, ?_, ?_⟩
  · show runOps c.pending (fullSyncOps md5f probe folders fs c.pending)
      = full_sync_database md5f probe folders fs c.pending
    unfold fullSyncOps
    rw [runOps_append, runOps_upserts, runOps_dels]
    rfl
  · show runOps c.pending (fullSyncOps md5f probe folders fs c.pending)
      = full_sync_database md5f probe folders fs c.pending
    unfold fullSyncOps
    rw [runOps_append, runOps_upserts, runOps_dels]
    rfl

theorem full_sync_single_transaction_witness :
    (passAborted (fun s => s) (fun _ => (⟨"image", "", "", 0⟩ : Metadata)) ["/o"]
        [⟨"/o", "a.png", 5⟩] ⟨[], []⟩ 1).committed = (⟨[], []⟩ : Conn).committed ∧
    (passCommitted (fun s => s) (fun _ => (⟨"image", "", "", 0⟩ : Metadata)) ["/o"]
        [⟨"/o", "a.png", 5⟩] ⟨[], []⟩).committed
      = full_sync_database (fun s => s) (fun _ => (⟨"image", "", "", 0⟩ : Metadata)) ["/o"]
          [⟨"/o", "a.png", 5⟩] ([] : List FileRow) ∧
    (passCommitted (fun s => s) (fun _ => (⟨"image", "", "", 0⟩ : Metadata)) ["/o"]
        [⟨"/o", "a.png", 5⟩] ⟨[], []⟩).pending
      = full_sync_database (fun s => s) (fun _ => (⟨"image", "", "", 0⟩ : Metadata)) ["/o"]
          [⟨"/o", "a.png", 5⟩] ([] : List FileRow) :=
  full_sync_single_transaction (fun s => s) (fun _ => (⟨"image", "", "", 0⟩ : Metadata))
    ["/o"] [⟨"/o", "a.png", 5⟩] ⟨[], []⟩ 1

theorem likeMatch_wc_skip (ps : List Char) :
    ∀ (t s : List Char), likeMatch ps s = true → likeMatch ('%' :: ps) (t ++ s) = true := by
  intro t
  induction t with
  | nil =>
      intro s h
      rw [List.nil_append]
      cases s with
      | nil => simp [likeMatch, h]
      | cons c s2 => simp [likeMatch, h]
  | cons c t ih =>
      intro s h
      rw [List.cons_append]
      simp only [likeMatch]
      rw [ih s h]
      simp

theorem likeMatch_append_lit : ∀ (pre s : List Char),
    likeMatch (pre ++ ['%']) (pre ++ s) = true := by
  intro pre
  induction pre with
  | nil =>
      intro s
      have h := likeMatch_wc_skip [] s [] (by simp [likeMatch])
      simpa using h
  | cons c pre ih =>
      intro s
      rw [List.cons_append, List.cons_append]
      by_cases hc : c = '%'
      · subst hc
        exact likeMatch_wc_skip (pre ++ ['%']) ['%'] (pre ++ s) (ih s)
      · by_cases hu : c = '_'
        · subst hu
          simp only [likeMatch]
          exact ih s
        · rw [likeMatch]
          · rw [ih s]
            simp
          · exact hc
          · exact hu

theorem takeWhile_ne_slash (a b : List Char) :
    (∀ c ∈ a, c ≠ '/') →
    (a ++ '/' :: b).takeWhile (fun c => c ≠ '/') = a := by
  induction a with
  | nil =>
      intro _
      rw [List.nil_append]
      rw [List.takeWhile_cons_of_neg (by simp)]
  | cons c a ih =>
      intro h
      rw [List.cons_append, List.takeWhile_cons_of_pos]
      · rw [ih (fun x hx => h x (List.mem_cons_of_mem _ hx))]
      · exact decide_eq_true (h c (List.mem_cons_self _ _))

theorem data_join (F n : String) : (F ++ "/" ++ n).data = F.data ++ '/' :: n.data := by
  simp [String.data_append]

theorem dirname_join (F n : String) :
    (∀ c ∈ n.data, c ≠ '/') → F.data ≠ [] →
    (∀ d rf, F.data.reverse = d :: rf → d ≠ '/') →
    dirname (F ++ "/" ++ n) = F := by
  intro hn hF hd
  rcases hrev : F.data.reverse with _ | ⟨d, rf⟩
  · rw [List.reverse_eq_nil_iff] at hrev
    exact absurd hrev hF
  · have hd2 : d ≠ '/' := hd d rf hrev
    have hr : (F ++ "/" ++ n).data.reverse = n.data.reverse ++ '/' :: F.data.reverse := by
      rw [data_join, List.reverse_append, List.reverse_cons, List.append_assoc]
      rfl
    have htail : ((F ++ "/" ++ n).data.reverse).takeWhile (fun c => c ≠ '/')
        = n.data.reverse := by
      rw [hr]
      exact takeWhile_ne_slash _ _ (fun c hc => hn c (by simpa using hc))
    have hlen : ¬((n.data.reverse).length = ((F ++ "/" ++ n).data.reverse).length) := by
      rw [hr]
      simp only [List.length_append, List.length_cons, List.length_reverse]
      omega
    have hdrop : ((F ++ "/" ++ n).data.reverse).drop ((n.data.reverse).length)
        = '/' :: F.data.reverse := by
      rw [hr]
      exact List.drop_left _ _
    have hall : (('/' :: F.data.reverse).all (fun c => c = '/')) = false := by
      rw [hrev]
      simp [hd2]
    have hdw : ('/' :: F.data.reverse).dropWhile (fun c => c = '/') = F.data.reverse := by
      rw [List.dropWhile_cons_of_pos (by simp)]
      rw [hrev, List.dropWhile_cons_of_neg (by simp [hd2])]
    simp only [dirname]
    rw [htail, if_neg hlen, hdrop, hall]
    rw [if_neg (by simp)]
    rw [hdw]
    rw [List.reverse_reverse]

theorem extOKScoped_imp_full (e : DiskFile) (h : extOKScoped e = true) :
    extOKFull e = true := by
  unfold extOKScoped at h
  unfold extOKFull
  have hmem : pyExtLower e.name ∈ validExtensions := by simpa using h
  apply decide_eq_true
  intro hc
  rcases hc with hc | hc <;> rw [hc] at hmem <;> revert hmem <;> decide

theorem dictGet_diskStep_fold_of_mem (fs : List DiskFile) (F : String)
    (hfs : (fs.map filePath).Nodup) (acc : List (String × Int)) (e : DiskFile)
    (hm : e ∈ fs) (hF : e.folder = F) (hok : extOKFull e = true) :
    dictGet ((fs.filter (fun q => q.folder = F)).foldl diskStep acc) (filePath e)
      = some e.mtime := by
  have hshape : (fs.filter (fun q => q.folder = F)).foldl diskStep acc
      = (fs.filter (fun q => q.folder = F)).foldl
        (fun a q => if extOKFull q then dictInsert a (filePath q) q.mtime else a) acc := rfl
  rw [hshape]
  apply dictGet_foldl_of_mem
  · exact ⟨e, List.mem_filter.mpr ⟨hm, decide_eq_true hF⟩, hok, rfl, rfl⟩
  · intro e2 hm2 _ hk
    have he2 : e2 = e := List.inj_on_of_nodup_map hfs (List.mem_of_mem_filter hm2) hm hk
    rw [he2]

theorem dictGet_fullDiskFiles_aux_of_mem (folders : List String) (fs : List DiskFile)
    (hfs : (fs.map filePath).Nodup) (e : DiskFile) (hm : e ∈ fs)
    (hok : extOKFull e = true) :
    ∀ acc, (dictGet acc (filePath e) = some e.mtime ∨ e.folder ∈ folders) →
    dictGet (folders.foldl
        (fun acc F => (fs.filter (fun q => q.folder = F)).foldl diskStep acc) acc)
      (filePath e) = some e.mtime := by
  induction folders with
  | nil =>
      intro acc h
      rcases h with h | h
      · exact h
      · exact absurd h (List.not_mem_nil _)
  | cons F rest ih =>
      intro acc h
      rw [List.foldl_cons]
      by_cases hF : e.folder = F
      · exact ih _ (Or.inl (dictGet_diskStep_fold_of_mem fs F hfs acc e hm hF hok))
      · have hframe : dictGet ((fs.filter (fun q => q.folder = F)).foldl diskStep acc)
            (filePath e) = dictGet acc (filePath e) := by
          have hshape : (fs.filter (fun q => q.folder = F)).foldl diskStep acc
              = (fs.filter (fun q => q.folder = F)).foldl
                (fun a q => if extOKFull q then dictInsert a (filePath q) q.mtime else a)
                acc := rfl
          rw [hshape]
          apply dictGet_foldl_frame
          intro e2 hm2 _ hk
          have he2 : e2 = e := List.inj_on_of_nodup_map hfs (List.mem_of_mem_filter hm2) hm hk
          rcases List.mem_filter.mp hm2 with ⟨_, hf2⟩
          apply hF
          rw [← he2]
          exact of_decide_eq_true hf2
        rcases h with h | h
        · exact ih _ (Or.inl (by rw [hframe]; exact h))
        · rcases List.mem_cons.mp h with hc | hc
          · exact absurd hc hF
          · exact ih _ (Or.inr hc)

theorem dictGet_fullDiskFiles_of_mem (folders : List String) (fs : List DiskFile)
    (hfs : (fs.map filePath).Nodup) (e : DiskFile) (hm : e ∈ fs)
    (hF : e.folder ∈ folders) (hok : extOKFull e = true) :
    dictGet (fullDiskFiles folders fs) (filePath e) = some e.mtime := by
  unfold fullDiskFiles
  exact dictGet_fullDiskFiles_aux_of_mem folders fs hfs e hm hok [] (Or.inr hF)

theorem dictGet_scopedDiskFiles_of_mem (fs : List DiskFile) (folder : String)
    (hfs : (fs.map filePath).Nodup) (e : DiskFile) (hm : e ∈ fs)
    (hF : e.folder = folder) (hok : extOKScoped e = true) :
    dictGet (scopedDiskFiles fs folder) (filePath e) = some e.mtime := by
  unfold scopedDiskFiles
  apply dictGet_foldl_of_mem
  · exact ⟨e, List.mem_filter.mpr ⟨hm, decide_eq_true hF⟩, hok, rfl, rfl⟩
  · intro e2 hm2 _ hk
    have he2 : e2 = e := List.inj_on_of_nodup_map hfs (List.mem_of_mem_filter hm2) hm hk
    rw [he2]

theorem scopedDbSelect_eq (db : List FileRow) (F : String)
    (hdbF : ∀ q ∈ db, dirname q.path = F → ∃ nm : String, q.path = F ++ "/" ++ nm) :
    scopedDbSelect db F = db.filter (fun r => decide (dirname r.path = F)) := by
  unfold scopedDbSelect
  rw [List.filter_filter]
  apply List.filter_congr
  intro q hm
  by_cases hdq : dirname q.path = F
  · rcases hdbF q hm hdq with ⟨nm, hnm⟩
    have hlike : likeMatch (F ++ "/%").data q.path.data = true := by
      rw [hnm]
      have h1 : (F ++ "/%").data = (F ++ "/").data ++ ['%'] := by
        simp [String.data_append]
      have h2 : (F ++ "/" ++ nm).data = (F ++ "/").data ++ nm.data := by
        simp [String.data_append]
      rw [h1, h2]
      exact likeMatch_append_lit _ _
    have hlike2 : likeMatch (F.data ++ ['/', '%']) q.path.data = true := by
      have hd3 : (F ++ "/%").data = F.data ++ ['/', '%'] := by
        simp [String.data_append]
      rw [← hd3]
      exact hlike
    simp [hlike, hlike2, hdq]
  · simp [hdq]

theorem rowLookup_sync_folder_on_demand {md5f : String → String}
    (hinj : Function.Injective md5f) (probe : String → Metadata)
    (fs : List DiskFile) (F : String)
    {db : List FileRow} (hId : ∀ q ∈ db, q.id = md5f q.path)
    (hnd : (db.map (fun q => q.path)).Nodup) (p : String) :
    rowLookup (sync_folder_on_demand md5f probe fs F db) p
      = (if p ∈ toDelete (scopedDiskFiles fs F) (dbFilesOf (scopedDbSelect db F)) then none
         else if p ∈ toAdd (scopedDiskFiles fs F) (dbFilesOf (scopedDbSelect db F))
             ++ toUpdate (scopedDiskFiles fs F) (dbFilesOf (scopedDbSelect db F)) then
           some (mkRow md5f probe p (dictGetD (scopedDiskFiles fs F) p 0))
         else rowLookup db p) := by
  have hrowsnd : ((upsertRowsOf md5f probe (scopedDiskFiles fs F)
      (dbFilesOf (scopedDbSelect db F))).map (fun r => r.path)).Nodup := by
    rw [upsertRowsOf_paths]
    exact processed_nodup _ _ (dictKeys_scopedDiskFiles_nodup fs F)
  have H := applyUpserts_facts hinj
    (upsertRowsOf md5f probe (scopedDiskFiles fs F) (dbFilesOf (scopedDbSelect db F))) db
    hId hnd (hId_upsertRowsOf md5f probe _ _) hrowsnd
  unfold sync_folder_on_demand
  by_cases hdel : p ∈ toDelete (scopedDiskFiles fs F) (dbFilesOf (scopedDbSelect db F))
  · rw [if_pos hdel]
    exact rowLookup_applyDeletes_mem hdel
  · rw [if_neg hdel]
    rw [rowLookup_applyDeletes_notmem hdel]
    by_cases hproc : p ∈ toAdd (scopedDiskFiles fs F) (dbFilesOf (scopedDbSelect db F))
        ++ toUpdate (scopedDiskFiles fs F) (dbFilesOf (scopedDbSelect db F))
    · rw [if_pos hproc]
      have hmem : mkRow md5f probe p (dictGetD (scopedDiskFiles fs F) p 0)
          ∈ upsertRowsOf md5f probe (scopedDiskFiles fs F) (dbFilesOf (scopedDbSelect db F)) := by
        unfold upsertRowsOf
        exact List.mem_map.mpr ⟨p, hproc, rfl⟩
      exact H.2.2.2.2 _ hmem
    · rw [if_neg hproc]
      apply H.2.2.2.1
      intro r hm hp
      apply hproc
      rw [← hp]
      exact (mem_rows_upsertRowsOf md5f probe _ _ r.path).mp ⟨r, hm, rfl⟩

/-- C2 (amended): the scoped pass filters extensions by a 14-entry whitelist
while the full pass only blacklists `.json`/`.sqlite`, so the passes diverge
on other extensions; but when every live file directly in `F` is
whitelisted, the scoped pass agrees with the full pass on `F`: each scoped
delta set equals the corresponding full delta set restricted to paths whose
dirname is `F`, the scoped pass leaves every other path's record unchanged,
and the two resulting stores agree on every path whose dirname is `F`. -/
theorem scoped_matches_full_on_whitelisted {md5f : String → String}
    (hinj : Function.Injective md5f) (probe : String → Metadata)
    (folders : List String) (fs : List DiskFile) (db : List FileRow) (F : String)
    (hId : ∀ q ∈ db, q.id = md5f q.path)
    (hnd : (db.map (fun q => q.path)).Nodup)
    (hfs : (fs.map filePath).Nodup)
    (hnames : ∀ e ∈ fs, ∀ c ∈ e.name.data, c ≠ '/')
    (hfolders : ∀ G ∈ folders, G.data ≠ [] ∧ ∀ d rf, G.data.reverse = d :: rf → d ≠ '/')
    (hF : F ∈ folders)
    (hext : ∀ e ∈ fs, e.folder = F → extOKScoped e = true)
    (hdbF : ∀ q ∈ db, dirname q.path = F → ∃ nm : String, q.path = F ++ "/" ++ nm) :
    (∀ p, dirname p = F →
      ((p ∈ toAdd (scopedDiskFiles fs F) (dbFilesOf (scopedDbSelect db F))
          ↔ p ∈ toAdd (fullDiskFiles folders fs) (dbFilesOf db)) ∧
       (p ∈ toUpdate (scopedDiskFiles fs F) (dbFilesOf (scopedDbSelect db F))
          ↔ p ∈ toUpdate (fullDiskFiles folders fs) (dbFilesOf db)) ∧
       (p ∈ toDelete (scopedDiskFiles fs F) (dbFilesOf (scopedDbSelect db F))
          ↔ p ∈ toDelete (fullDiskFiles folders fs) (dbFilesOf db)))) ∧
    (∀ p, dirname p ≠ F →
      rowLookup (sync_folder_on_demand md5f probe fs F db) p = rowLookup db p) ∧
    (∀ p, dirname p = F →
      rowLookup (sync_folder_on_demand md5f probe fs F db) p
        = rowLookup (full_sync_database md5f probe folders fs db) p) := by
  have hsel : scopedDbSelect db F = db.filter (fun r => decide (dirname r.path = F)) :=
    scopedDbSelect_eq db F hdbF
  have K1 : ∀ p, p ∈ dictKeys (scopedDiskFiles fs F)
      ↔ p ∈ dictKeys (fullDiskFiles folders fs) ∧ dirname p = F := by
    intro p
    rw [mem_dictKeys_scopedDiskFiles, mem_dictKeys_fullDiskFiles]
    constructor
    · rintro ⟨e, hm, hfold, hok, hp⟩
      have hdir : dirname (filePath e) = e.folder := by
        unfold filePath
        exact dirname_join e.folder e.name (hnames e hm)
          (hfolders e.folder (hfold.symm ▸ hF)).1 (hfolders e.folder (hfold.symm ▸ hF)).2
      refine ⟨⟨e, hm, hfold.symm ▸ hF, extOKScoped_imp_full e hok, hp⟩, ?_⟩
      rw [← hp, hdir, hfold]
    · rintro ⟨⟨e, hm, hfold, hok, hp⟩, hdirp⟩
      have hdir : dirname (filePath e) = e.folder := by
        unfold filePath
        exact dirname_join e.folder e.name (hnames e hm)
          (hfolders e.folder hfold).1 (hfolders e.folder hfold).2
      have heF : e.folder = F := by
        rw [← hdir, hp]
        exact hdirp
      exact ⟨e, hm, heF, hext e hm heF, hp⟩
  have K3 : ∀ p, p ∈ dictKeys (dbFilesOf (scopedDbSelect db F))
      ↔ p ∈ dictKeys (dbFilesOf db) ∧ dirname p = F := by
    intro p
    rw [hsel, mem_dictKeys_dbFilesOf, mem_dictKeys_dbFilesOf]
    constructor
    · rintro ⟨q, hm, hp⟩
      rcases List.mem_filter.mp hm with ⟨hmm, hd⟩
      refine ⟨⟨q, hmm, hp⟩, ?_⟩
      rw [← hp]
      exact of_decide_eq_true hd
    · rintro ⟨⟨q, hm, hp⟩, hdirp⟩
      refine ⟨q, List.mem_filter.mpr ⟨hm, ?_⟩, hp⟩
      exact decide_eq_true (show dirname q.path = F by rw [hp]; exact hdirp)
  have K2 : ∀ p ∈ dictKeys (scopedDiskFiles fs F),
      dictGetD (scopedDiskFiles fs F) p 0 = dictGetD (fullDiskFiles folders fs) p 0 := by
    intro p hp
    rcases (mem_dictKeys_scopedDiskFiles fs F p).mp hp with ⟨e, hm, hfold, hok, hpe⟩
    have h1 : dictGet (scopedDiskFiles fs F) p = some e.mtime := by
      rw [← hpe]
      exact dictGet_scopedDiskFiles_of_mem fs F hfs e hm hfold hok
    have h2 : dictGet (fullDiskFiles folders fs) p = some e.mtime := by
      rw [← hpe]
      exact dictGet_fullDiskFiles_of_mem folders fs hfs e hm (hfold.symm ▸ hF)
        (extOKScoped_imp_full e hok)
    unfold dictGetD
    rw [h1, h2]
  have K4 : ∀ p ∈ dictKeys (dbFilesOf (scopedDbSelect db F)),
      dictGetD (dbFilesOf (scopedDbSelect db F)) p 0 = dictGetD (dbFilesOf db) p 0 := by
    intro p hp
    rw [hsel] at hp
    rcases (mem_dictKeys_dbFilesOf _ p).mp hp with ⟨q, hm, hp2⟩
    have hndf : ((db.filter (fun r => decide (dirname r.path = F))).map
        (fun q => q.path)).Nodup :=
      List.Nodup.sublist ((List.filter_sublist db).map (fun q => q.path)) hnd
    have h1 : dictGet (dbFilesOf (db.filter (fun r => decide (dirname r.path = F)))) p
        = some q.mtime := by
      rw [← hp2]
      exact dictGet_dbFilesOf hndf hm
    have h2 : dictGet (dbFilesOf db) p = some q.mtime := by
      rw [← hp2]
      exact dictGet_dbFilesOf hnd (List.mem_of_mem_filter hm)
    unfold dictGetD
    rw [hsel, h1, h2]
  have KAdd : ∀ p, dirname p = F →
      (p ∈ toAdd (scopedDiskFiles fs F) (dbFilesOf (scopedDbSelect db F))
        ↔ p ∈ toAdd (fullDiskFiles folders fs) (dbFilesOf db)) := by
    intro p hdir
    rw [mem_toAdd, mem_toAdd, K1 p, K3 p]
    constructor
    · rintro ⟨⟨hL, _⟩, hnD⟩
      exact ⟨hL, fun hc => hnD ⟨hc, hdir⟩⟩
    · rintro ⟨hL, hnD⟩
      exact ⟨⟨hL, hdir⟩, fun hc => hnD hc.1⟩
  have KDel : ∀ p, dirname p = F →
      (p ∈ toDelete (scopedDiskFiles fs F) (dbFilesOf (scopedDbSelect db F))
        ↔ p ∈ toDelete (fullDiskFiles folders fs) (dbFilesOf db)) := by
    intro p hdir
    rw [mem_toDelete, mem_toDelete, K1 p, K3 p]
    constructor
    · rintro ⟨⟨hD, _⟩, hnL⟩
      exact ⟨hD, fun hc => hnL ⟨hc, hdir⟩⟩
    · rintro ⟨hD, hnL⟩
      exact ⟨⟨hD, hdir⟩, fun hc => hnL hc.1⟩
  have KUpd : ∀ p, dirname p = F →
      (p ∈ toUpdate (scopedDiskFiles fs F) (dbFilesOf (scopedDbSelect db F))
        ↔ p ∈ toUpdate (fullDiskFiles folders fs) (dbFilesOf db)) := by
    intro p hdir
    rw [mem_toUpdate, mem_toUpdate]
    constructor
    · rintro ⟨hL, hD, hv⟩
      refine ⟨((K1 p).mp hL).1, ((K3 p).mp hD).1, ?_⟩
      rw [← K2 p hL, ← K4 p hD]
      exact hv
    · rintro ⟨hL, hD, hv⟩
      have hL2 := (K1 p).mpr ⟨hL, hdir⟩
      have hD2 := (K3 p).mpr ⟨hD, hdir⟩
      refine ⟨hL2, hD2, ?_⟩
      rw [K2 p hL2, K4 p hD2]
      exact hv
  refine ⟨fun p hdir => ⟨KAdd p hdir, KUpd p hdir, KDel p hdir⟩, ?_, ?_⟩
  · intro p hdir
    rw [rowLookup_sync_folder_on_demand hinj probe fs F hId hnd p]
    have hx1 : p ∉ toDelete (scopedDiskFiles fs F) (dbFilesOf (scopedDbSelect db F)) := by
      intro hc
      exact hdir ((K3 p).mp ((mem_toDelete _ _ p).mp hc).1).2
    have hx2 : p ∉ toAdd (scopedDiskFiles fs F) (dbFilesOf (scopedDbSelect db F))
        ++ toUpdate (scopedDiskFiles fs F) (dbFilesOf (scopedDbSelect db F)) := by
      intro hc
      rcases List.mem_append.mp hc with h | h
      · exact hdir ((K1 p).mp ((mem_toAdd _ _ p).mp h).1).2
      · exact hdir ((K1 p).mp ((mem_toUpdate _ _ p).mp h).1).2
    rw [if_neg hx1, if_neg hx2]
  · intro p hdir
    rw [rowLookup_sync_folder_on_demand hinj probe fs F hId hnd p,
      rowLookup_full_sync_database hinj probe folders fs hId hnd p]
    by_cases hdel : p ∈ toDelete (fullDiskFiles folders fs) (dbFilesOf db)
    · rw [if_pos hdel, if_pos ((KDel p hdir).mpr hdel)]
    · rw [if_neg hdel, if_neg (fun hc => hdel ((KDel p hdir).mp hc))]
      by_cases hproc : p ∈ toAdd (fullDiskFiles folders fs) (dbFilesOf db)
          ++ toUpdate (fullDiskFiles folders fs) (dbFilesOf db)
      · have hprocsc : p ∈ toAdd (scopedDiskFiles fs F) (dbFilesOf (scopedDbSelect db F))
            ++ toUpdate (scopedDiskFiles fs F) (dbFilesOf (scopedDbSelect db F)) := by
          rcases List.mem_append.mp hproc with h | h
          · exact List.mem_append_left _ ((KAdd p hdir).mpr h)
          · exact List.mem_append_right _ ((KUpd p hdir).mpr h)
        rw [if_pos hproc, if_pos hprocsc]
        have hLsc : p ∈ dictKeys (scopedDiskFiles fs F) := by
          rcases List.mem_append.mp hprocsc with h | h
          · exact ((mem_toAdd _ _ p).mp h).1
          · exact ((mem_toUpdate _ _ p).mp h).1
        rw [K2 p hLsc]
      · have hprocsc : p ∉ toAdd (scopedDiskFiles fs F) (dbFilesOf (scopedDbSelect db F))
            ++ toUpdate (scopedDiskFiles fs F) (dbFilesOf (scopedDbSelect db F)) := by
          intro hc
          apply hproc
          rcases List.mem_append.mp hc with h | h
          · exact List.mem_append_left _ ((KAdd p hdir).mp h)
          · exact List.mem_append_right _ ((KUpd p hdir).mp h)
        rw [if_neg hproc, if_neg hprocsc]

/-- C2 counterexample: a `.txt` file on disk and in the store survives the
full pass (its extension is merely not blacklisted) but is deleted by the
scoped pass run on its own folder (its extension is outside the scoped
whitelist), so the scoped pass does not compute the full pass's delta sets
restricted to that folder. -/
theorem scoped_full_equivalence_counterexample :
    dirname "/o/f/x.txt" = "/o/f" ∧
    full_sync_database (fun s => s) (fun _ => (⟨"unknown", "", "", 0⟩ : Metadata)) ["/o/f"]
        [⟨"/o/f", "x.txt", 5⟩]
        [⟨"/o/f/x.txt", "/o/f/x.txt", 5, "x.txt", "unknown", "", "", 0, 0⟩]
      = [⟨"/o/f/x.txt", "/o/f/x.txt", 5, "x.txt", "unknown", "", "", 0, 0⟩] ∧
    sync_folder_on_demand (fun s => s) (fun _ => (⟨"unknown", "", "", 0⟩ : Metadata))
        [⟨"/o/f", "x.txt", 5⟩] "/o/f"
        [⟨"/o/f/x.txt", "/o/f/x.txt", 5, "x.txt", "unknown", "", "", 0, 0⟩]
      = [] := by
  refine ⟨by decide, by decide, ?_⟩
  have hsel : scopedDbSelect
      [⟨"/o/f/x.txt", "/o/f/x.txt", 5, "x.txt", "unknown", "", "", 0, 0⟩] "/o/f"
      = ([⟨"/o/f/x.txt", "/o/f/x.txt", 5, "x.txt", "unknown", "", "", 0, 0⟩]
          : List FileRow).filter (fun r => decide (dirname r.path = "/o/f")) := by
    apply scopedDbSelect_eq
    intro q hq _
    have hq2 : q = ⟨"/o/f/x.txt", "/o/f/x.txt", 5, "x.txt", "unknown", "", "", 0, 0⟩ := by
      simpa using hq
    subst hq2
    exact ⟨"x.txt", by decide⟩
  unfold sync_folder_on_demand
  rw [hsel]
  decide

theorem scoped_matches_full_on_whitelisted_witness :
    dirname "/o/f/a.png" = "/o/f" ∧
    rowLookup (sync_folder_on_demand (fun s => s)
        (fun _ => (⟨"image", "", "", 0⟩ : Metadata)) [⟨"/o/f", "a.png", 5⟩] "/o/f" [])
        "/o/f/a.png"
      = rowLookup (full_sync_database (fun s => s)
          (fun _ => (⟨"image", "", "", 0⟩ : Metadata)) ["/o/f"] [⟨"/o/f", "a.png", 5⟩] [])
          "/o/f/a.png" :=
  ⟨by decide,
    (scoped_matches_full_on_whitelisted (fun _ _ h => h)
      (fun _ => (⟨"image", "", "", 0⟩ : Metadata)) ["/o/f"] [⟨"/o/f", "a.png", 5⟩] [] "/o/f"
      (fun q hq => absurd hq (List.not_mem_nil q)) (by decide) (by decide) (by decide)
      (by
        intro G hG
        have hG2 : G = "/o/f" := by simpa using hG
        subst hG2
        refine ⟨by decide, ?_⟩
        intro d rf h
        have he : d :: rf = ['f', '/', 'o', '/'] := by
          rw [← h]
          decide
        injection he with h1 _
        rw [h1]
        decide)
      (by decide) (by decide)
      (fun q hq => absurd hq (List.not_mem_nil q))).2.2 "/o/f/a.png" (by decide)⟩

/-- C5 (amended): each reconciliation pass applies the staleness rule to its
own disk view — a stored file that the pass's disk scan lists is re-probed
and rewritten if and only if the live mtime strictly exceeds the stored one,
and is left untouched when it does not (equal mtimes included) — but the two
passes build different disk views: the scoped pass lists only whitelisted
extensions, so a stored file that is physically on disk with an unchanged
mtime but a non-whitelisted extension is absent from the scoped view and its
record is deleted by a scoped pass of its folder, not left untouched. -/
theorem full_sync_staleness {md5f : String → String} (hinj : Function.Injective md5f)
    (probe : String → Metadata) (folders : List String) (fs : List DiskFile) (F : String)
    {db : List FileRow} (hId : ∀ q ∈ db, q.id = md5f q.path)
    (hnd : (db.map (fun q => q.path)).Nodup)
    {r : FileRow} (hr : r ∈ db)
    (hdbF : ∀ q ∈ db, dirname q.path = F → ∃ nm : String, q.path = F ++ "/" ++ nm) :
    (r.path ∈ dictKeys (fullDiskFiles folders fs) →
      (dictGetD (fullDiskFiles folders fs) r.path 0 > r.mtime →
        rowLookup (full_sync_database md5f probe folders fs db) r.path
          = some (mkRow md5f probe r.path (dictGetD (fullDiskFiles folders fs) r.path 0))) ∧
      (dictGetD (fullDiskFiles folders fs) r.path 0 ≤ r.mtime →
        rowLookup (full_sync_database md5f probe folders fs db) r.path
          = rowLookup db r.path)) ∧
    (dirname r.path = F → r.path ∈ dictKeys (scopedDiskFiles fs F) →
      (dictGetD (scopedDiskFiles fs F) r.path 0 > r.mtime →
        rowLookup (sync_folder_on_demand md5f probe fs F db) r.path
          = some (mkRow md5f probe r.path (dictGetD (scopedDiskFiles fs F) r.path 0))) ∧
      (dictGetD (scopedDiskFiles fs F) r.path 0 ≤ r.mtime →
        rowLookup (sync_folder_on_demand md5f probe fs F db) r.path
          = rowLookup db r.path)) ∧
    (dirname r.path = F → r.path ∉ dictKeys (scopedDiskFiles fs F) →
      rowLookup (sync_folder_on_demand md5f probe fs F db) r.path = none) := by
  have hsel : scopedDbSelect db F = db.filter (fun q => decide (dirname q.path = F)) :=
    scopedDbSelect_eq db F hdbF
  have hndf : ((db.filter (fun q => decide (dirname q.path = F))).map
      (fun q => q.path)).Nodup :=
    List.Nodup.sublist ((List.filter_sublist db).map (fun q => q.path)) hnd
  refine ⟨?_, ?_, ?_⟩
  · intro hdisk
    have hD : r.path ∈ dictKeys (dbFilesOf db) :=
      (mem_dictKeys_dbFilesOf db r.path).mpr ⟨r, hr, rfl⟩
    have hDval : dictGet (dbFilesOf db) r.path = some r.mtime := dictGet_dbFilesOf hnd hr
    have hDgetD : dictGetD (dbFilesOf db) r.path 0 = r.mtime := by
      unfold dictGetD
      rw [hDval]
      rfl
    have hnotdel : r.path ∉ toDelete (fullDiskFiles folders fs) (dbFilesOf db) := by
      intro hdel
      exact ((mem_toDelete _ _ r.path).mp hdel).2 hdisk
    rw [rowLookup_full_sync_database hinj probe folders fs hId hnd r.path, if_neg hnotdel]
    constructor
    · intro hgt
      have hupd : r.path ∈ toUpdate (fullDiskFiles folders fs) (dbFilesOf db) :=
        (mem_toUpdate _ _ r.path).mpr ⟨hdisk, hD, by rw [hDgetD]; exact hgt⟩
      rw [if_pos (List.mem_append_right _ hupd)]
    · intro hle
      have hproc : r.path ∉ toAdd (fullDiskFiles folders fs) (dbFilesOf db)
          ++ toUpdate (fullDiskFiles folders fs) (dbFilesOf db) := by
        intro hp
        rcases List.mem_append.mp hp with h | h
        · exact ((mem_toAdd _ _ r.path).mp h).2 hD
        · have hx := ((mem_toUpdate _ _ r.path).mp h).2.2
          rw [hDgetD] at hx
          omega
      rw [if_neg hproc]
  · intro hdir hdiskSc
    have hrf : r ∈ db.filter (fun q => decide (dirname q.path = F)) :=
      List.mem_filter.mpr ⟨hr, decide_eq_true hdir⟩
    have hD : r.path ∈ dictKeys (dbFilesOf (scopedDbSelect db F)) := by
      rw [hsel]
      exact (mem_dictKeys_dbFilesOf _ r.path).mpr ⟨r, hrf, rfl⟩
    have hDval : dictGet (dbFilesOf (scopedDbSelect db F)) r.path = some r.mtime := by
      rw [hsel]
      exact dictGet_dbFilesOf hndf hrf
    have hDgetD : dictGetD (dbFilesOf (scopedDbSelect db F)) r.path 0 = r.mtime := by
      unfold dictGetD
      rw [hDval]
      rfl
    have hnotdel : r.path ∉ toDelete (scopedDiskFiles fs F)
        (dbFilesOf (scopedDbSelect db F)) := by
      intro hdel
      exact ((mem_toDelete _ _ r.path).mp hdel).2 hdiskSc
    rw [rowLookup_sync_folder_on_demand hinj probe fs F hId hnd r.path, if_neg hnotdel]
    constructor
    · intro hgt
      have hupd : r.path ∈ toUpdate (scopedDiskFiles fs F)
          (dbFilesOf (scopedDbSelect db F)) :=
        (mem_toUpdate _ _ r.path).mpr ⟨hdiskSc, hD, by rw [hDgetD]; exact hgt⟩
      rw [if_pos (List.mem_append_right _ hupd)]
    · intro hle
      have hproc : r.path ∉ toAdd (scopedDiskFiles fs F) (dbFilesOf (scopedDbSelect db F))
          ++ toUpdate (scopedDiskFiles fs F) (dbFilesOf (scopedDbSelect db F)) := by
        intro hp
        rcases List.mem_append.mp hp with h | h
        · exact ((mem_toAdd _ _ r.path).mp h).2 hD
        · have hx := ((mem_toUpdate _ _ r.path).mp h).2.2
          rw [hDgetD] at hx
          omega
      rw [if_neg hproc]
  · intro hdir hnsc
    have hrf : r ∈ db.filter (fun q => decide (dirname q.path = F)) :=
      List.mem_filter.mpr ⟨hr, decide_eq_true hdir⟩
    have hD : r.path ∈ dictKeys (dbFilesOf (scopedDbSelect db F)) := by
      rw [hsel]
      exact (mem_dictKeys_dbFilesOf _ r.path).mpr ⟨r, hrf, rfl⟩
    have hdel : r.path ∈ toDelete (scopedDiskFiles fs F)
        (dbFilesOf (scopedDbSelect db F)) :=
      (mem_toDelete _ _ r.path).mpr ⟨hD, hnsc⟩
    rw [rowLookup_sync_folder_on_demand hinj probe fs F hId hnd r.path, if_pos hdel]

/-- C5 counterexample: a `.txt` file present on disk and in the store with
equal live and stored mtimes is not left untouched by a scoped
reconciliation pass of its folder — the scoped pass's extension whitelist
hides the file from its disk view and the pass deletes its record. -/
theorem full_sync_staleness_counterexample :
    filePath ⟨"/o/f", "x.txt", 5⟩ = "/o/f/x.txt" ∧
    rowLookup [⟨"/o/f/x.txt", "/o/f/x.txt", 5, "x.txt", "unknown", "", "", 0, 0⟩]
        "/o/f/x.txt"
      = some ⟨"/o/f/x.txt", "/o/f/x.txt", 5, "x.txt", "unknown", "", "", 0, 0⟩ ∧
    rowLookup (sync_folder_on_demand (fun s => s)
        (fun _ => (⟨"unknown", "", "", 0⟩ : Metadata)) [⟨"/o/f", "x.txt", 5⟩] "/o/f"
        [⟨"/o/f/x.txt", "/o/f/x.txt", 5, "x.txt", "unknown", "", "", 0, 0⟩]) "/o/f/x.txt"
      = none := by
  refine ⟨by decide, by decide, ?_⟩
  have hsel : scopedDbSelect
      [⟨"/o/f/x.txt", "/o/f/x.txt", 5, "x.txt", "unknown", "", "", 0, 0⟩] "/o/f"
      = ([⟨"/o/f/x.txt", "/o/f/x.txt", 5, "x.txt", "unknown", "", "", 0, 0⟩]
          : List FileRow).filter (fun q => decide (dirname q.path = "/o/f")) := by
    apply scopedDbSelect_eq
    intro q hq _
    have hq2 : q = ⟨"/o/f/x.txt", "/o/f/x.txt", 5, "x.txt", "unknown", "", "", 0, 0⟩ := by
      simpa using hq
    subst hq2
    exact ⟨"x.txt", by decide⟩
  unfold sync_folder_on_demand
  rw [hsel]
  decide

theorem full_sync_staleness_witness :
    ((5 : Int) ≤ 5) ∧
    rowLookup (full_sync_database (fun s => s) (fun _ => (⟨"image", "", "", 0⟩ : Metadata))
        ["/o"] [⟨"/o", "a.png", 5⟩]
        [⟨"/o/a.png", "/o/a.png", 5, "a.png", "image", "", "", 0, 1⟩]) "/o/a.png"
      = rowLookup [⟨"/o/a.png", "/o/a.png", 5, "a.png", "image", "", "", 0, 1⟩] "/o/a.png" :=
  ⟨by decide,
    ((full_sync_staleness (fun _ _ h => h) (fun _ => (⟨"image", "", "", 0⟩ : Metadata))
      ["/o"] [⟨"/o", "a.png", 5⟩] "/o" (by decide) (by decide) (List.mem_cons_self _ _)
      (by
        intro q hq _
        have hq2 : q = ⟨"/o/a.png", "/o/a.png", 5, "a.png", "image", "", "", 0, 1⟩ := by
          simpa using hq
        subst hq2
        exact ⟨"a.png", by decide⟩)).1 (by decide)).2 (by decide)⟩

end Gallery
